import Mathlib

/-
  Verification development for the Wi-SUN FAN router daemon core.

  Shallow embedding of:
  * the per-neighbor ETX estimator (common/ws/ws_etx.h),
  * the 6LoWPAN fragment reassembler (6lowpan_frag.c),
  * the RPL MRHOF parent selection engine (app_wsrd/ipv6/rpl_mrhof.c),
  * the supplicant session store loader (app_wsrd/supplicant/supplicant_storage.c).

  Modelling conventions:
  * C `float` values are embedded as exact rationals (`ℚ`); NaN-able floats
    become `Option ℚ` with `none` playing the role of NaN (the source only
    ever uses NaN as an "unset" sentinel tested via `isnan`).
  * Machine integers are `ℕ`/`ℤ` with an explicit `% 2^w` at the points where
    the C code can actually truncate or wrap.
  * Timers are reduced to their observable running/stopped state; callback
    function pointers become booleans ("a callback is registered") plus ghost
    invocation counters recording how often each callback was invoked.
-/

namespace WiSun

/-! ## ETX estimator (common/ws/ws_etx.h)

`struct ws_etx`: the per-neighbor estimator.  `etx` is the C `float etx`
(NaN ↦ `none`); the four counters are C `int`s; the two timers are kept as
running flags.  `outdated_calls` / `update_calls` are ghost observation
counters for the `on_etx_outdated` / `on_etx_update` callback invocations. -/
structure WsEtx where
  etx : Option ℚ
  tx_cnt : ℤ
  ack_cnt : ℤ
  tx_req_cnt : ℤ
  compute_cnt : ℤ
  timer_compute_running : Bool
  timer_outdated_running : Bool
  outdated_calls : ℕ
  update_calls : ℕ
  deriving DecidableEq, Repr

/-- `struct ws_etx_ctx`: configuration and callback registration state.
Delay durations do not influence any of the properties below (only the
running/stopped state of timers does), so they are omitted. -/
structure WsEtxCtx where
  update_min_tx_req_cnt : ℤ
  has_on_etx_outdated : Bool
  has_on_etx_update : Bool
  deriving DecidableEq, Repr

/-- `WS_ETX_MAX` (common/specs/ws.h): the source comment in
`ws_etx_timeout_compute` fixes it — "with a maximum value of 1024". -/
def WS_ETX_MAX : ℚ := 1024

/-- `ws_ewma_next` (ws_ewma.h): `isnan(cur) ? val : smoothing_factor * (val - cur) + cur`. -/
def ws_ewma_next (cur : Option ℚ) (val : ℚ) (smoothing_factor : ℚ) : ℚ :=
  match cur with
  | none => val
  | some c => smoothing_factor * (val - c) + c

/-- `ws_etx_init`: NaN value, zeroed counters; a fresh estimator's timers are
stopped.  Ghost counters start at zero. -/
def ws_etx_init : WsEtx :=
  { etx := none, tx_cnt := 0, ack_cnt := 0, tx_req_cnt := 0, compute_cnt := 0,
    timer_compute_running := false, timer_outdated_running := false,
    outdated_calls := 0, update_calls := 0 }

/-- `ws_etx_reset`: stop both timers, re-init.  Ghost observation counters are
kept (they are not program state). -/
def ws_etx_reset (e : WsEtx) : WsEtx :=
  { etx := none, tx_cnt := 0, ack_cnt := 0, tx_req_cnt := 0, compute_cnt := 0,
    timer_compute_running := false, timer_outdated_running := false,
    outdated_calls := e.outdated_calls, update_calls := e.update_calls }

/-- `ws_etx_update`: bump the counters, then start the compute timer (with a
zero delay) if it is not already running. -/
def ws_etx_update (e : WsEtx) (tx_count : ℤ) (ack : Bool) : WsEtx :=
  let e := { e with
    tx_req_cnt := e.tx_req_cnt + 1,
    tx_cnt := e.tx_cnt + tx_count,
    ack_cnt := e.ack_cnt + (if ack then 1 else 0) }
  if e.timer_compute_running then e else { e with timer_compute_running := true }

/-- Body of `ws_etx_timeout_compute`, invoked after the timer facility has
marked the fired compute timer as stopped.

If the epoch condition `tx_req_cnt >= update_min_tx_req_cnt || isnan(etx)`
does not hold, the handler only invokes `on_etx_outdated` — and only when the
outdated timer is stopped and the callback is registered — and returns.
Otherwise it computes `raw = ack_cnt ? min(tx_cnt/ack_cnt * 128, WS_ETX_MAX)
: WS_ETX_MAX`, blends it by EWMA with smoothing factor `1/compute_cnt`
(after saturating `compute_cnt` towards 8), resets the counters, restarts
both timers, and invokes `on_etx_update`. -/
def ws_etx_timeout_compute (ctx : WsEtxCtx) (e : WsEtx) : WsEtx :=
  if ¬(e.tx_req_cnt ≥ ctx.update_min_tx_req_cnt ∨ e.etx = none) then
    if ¬e.timer_outdated_running ∧ ctx.has_on_etx_outdated then
      { e with outdated_calls := e.outdated_calls + 1 }
    else
      e
  else
    let raw : ℚ :=
      if e.ack_cnt ≠ 0 then min ((e.tx_cnt : ℚ) / (e.ack_cnt : ℚ) * 128) WS_ETX_MAX
      else WS_ETX_MAX
    let cc : ℤ := if e.compute_cnt < 8 then e.compute_cnt + 1 else e.compute_cnt
    let etx' : ℚ := ws_ewma_next e.etx raw (1 / (cc : ℚ))
    { e with etx := some etx', tx_cnt := 0, ack_cnt := 0, tx_req_cnt := 0,
             compute_cnt := cc,
             timer_compute_running := true, timer_outdated_running := true,
             update_calls := e.update_calls + (if ctx.has_on_etx_update then 1 else 0) }

/-- Body of `ws_etx_timeout_outdated`: unconditionally invoke
`on_etx_outdated` when registered. -/
def ws_etx_timeout_outdated (ctx : WsEtxCtx) (e : WsEtx) : WsEtx :=
  if ctx.has_on_etx_outdated then { e with outdated_calls := e.outdated_calls + 1 } else e

/-- The events an estimator can undergo: a TX confirmation
(`ws_etx_update`), either timer firing, and `ws_etx_reset`. -/
inductive EtxEvent where
  | update (tx_count : ℤ) (ack : Bool)
  | fireCompute
  | fireOutdated
  | reset
  deriving DecidableEq, Repr

/-- One event step.  A timer can only fire while running; firing marks it
stopped before its callback body runs. -/
def ws_etx_step (ctx : WsEtxCtx) (e : WsEtx) : EtxEvent → WsEtx
  | .update tx_count ack => ws_etx_update e tx_count ack
  | .fireCompute =>
      if e.timer_compute_running then
        ws_etx_timeout_compute ctx { e with timer_compute_running := false }
      else e
  | .fireOutdated =>
      if e.timer_outdated_running then
        ws_etx_timeout_outdated ctx { e with timer_outdated_running := false }
      else e
  | .reset => ws_etx_reset e

/-- Run a sequence of events on a fresh estimator. -/
def ws_etx_run (ctx : WsEtxCtx) (evs : List EtxEvent) : WsEtx :=
  evs.foldl (ws_etx_step ctx) ws_etx_init

/-- A TX confirmation reports at least one transmission attempt. -/
def EtxEventOk : EtxEvent → Prop
  | .update tx_count _ => 1 ≤ tx_count
  | _ => True

instance : DecidablePred EtxEventOk := by
  intro ev; cases ev <;> simp [EtxEventOk] <;> infer_instance

/-- State invariant of the estimator under well-formed updates. -/
def EtxInv (e : WsEtx) : Prop :=
  0 ≤ e.ack_cnt ∧ e.ack_cnt ≤ e.tx_cnt ∧ 0 ≤ e.compute_cnt ∧ e.compute_cnt ≤ 8 ∧
  (e.etx = none ↔ e.compute_cnt = 0) ∧
  (∀ q : ℚ, e.etx = some q → 128 ≤ q ∧ q ≤ 1024)

theorem etxInv_init : EtxInv ws_etx_init := by
  refine ⟨le_refl 0, le_refl 0, le_refl 0, by simp [ws_etx_init], by simp [ws_etx_init], ?_⟩
  intro q h; simp [ws_etx_init] at h

theorem etxInv_reset (e : WsEtx) : EtxInv (ws_etx_reset e) := by
  refine ⟨le_refl 0, le_refl 0, le_refl 0, by simp [ws_etx_reset], by simp [ws_etx_reset], ?_⟩
  intro q h; simp [ws_etx_reset] at h

theorem etxInv_update (e : WsEtx) (tx_count : ℤ) (ack : Bool)
    (hinv : EtxInv e) (htx : 1 ≤ tx_count) :
    EtxInv (ws_etx_update e tx_count ack) := by
  obtain ⟨h1, h2, h3, h4, h5, h6⟩ := hinv
  have hstep : 0 ≤ e.ack_cnt + (if ack then 1 else 0) ∧
      e.ack_cnt + (if ack then 1 else 0) ≤ e.tx_cnt + tx_count := by
    constructor
    · cases ack <;> simp <;> omega
    · cases ack <;> simp <;> omega
  unfold ws_etx_update
  by_cases hr : e.timer_compute_running <;>
    simp only [hr, if_true, if_false] <;>
    exact ⟨hstep.1, hstep.2, h3, h4, h5, h6⟩

theorem etx_raw_bounds (tx ack : ℤ) (h0 : 0 ≤ ack) (h1 : ack ≤ tx) :
    let raw : ℚ := if ack ≠ 0 then min ((tx : ℚ) / (ack : ℚ) * 128) WS_ETX_MAX else WS_ETX_MAX
    128 ≤ raw ∧ raw ≤ 1024 := by
  intro raw
  by_cases hz : ack = 0
  · simp only [raw, hz, ne_eq, not_true_eq_false, if_false, WS_ETX_MAX]
    norm_num
  · have hpos : (0 : ℚ) < (ack : ℚ) := by
      have : 0 < ack := lt_of_le_of_ne h0 (Ne.symm hz)
      exact_mod_cast this
    have hle : (ack : ℚ) ≤ (tx : ℚ) := by exact_mod_cast h1
    have hq : (1 : ℚ) ≤ (tx : ℚ) / (ack : ℚ) := (one_le_div hpos).mpr hle
    have h128 : (128 : ℚ) ≤ (tx : ℚ) / (ack : ℚ) * 128 := by nlinarith
    simp only [raw, hz, ne_eq, not_false_eq_true, if_true, WS_ETX_MAX]
    constructor
    · exact le_min h128 (by norm_num)
    · exact min_le_right _ _

theorem etx_ewma_bounds (cur : Option ℚ) (raw sf : ℚ)
    (hcur : ∀ q : ℚ, cur = some q → 128 ≤ q ∧ q ≤ 1024)
    (hraw : 128 ≤ raw ∧ raw ≤ 1024) (hsf0 : 0 < sf) (hsf1 : sf ≤ 1) :
    128 ≤ ws_ewma_next cur raw sf ∧ ws_ewma_next cur raw sf ≤ 1024 := by
  match cur with
  | none => exact hraw
  | some c =>
    obtain ⟨hc1, hc2⟩ := hcur c rfl
    simp only [ws_ewma_next]
    constructor <;> nlinarith

theorem etxInv_fireCompute (ctx : WsEtxCtx) (e : WsEtx) (hinv : EtxInv e) :
    EtxInv (ws_etx_step ctx e .fireCompute) := by
  obtain ⟨h1, h2, h3, h4, h5, h6⟩ := hinv
  unfold ws_etx_step
  by_cases hr : e.timer_compute_running
  · simp only [hr, if_true]
    unfold ws_etx_timeout_compute
    by_cases hcond : ¬(e.tx_req_cnt ≥ ctx.update_min_tx_req_cnt ∨ e.etx = none)
    · simp only [hcond, if_true]
      by_cases hcb : ¬e.timer_outdated_running ∧ ctx.has_on_etx_outdated = true <;>
        simp only [hcb, if_true, if_false] <;> exact ⟨h1, h2, h3, h4, h5, h6⟩
    · simp only [hcond, if_false]
      have hcc0 : (0 : ℤ) ≤ (if e.compute_cnt < 8 then e.compute_cnt + 1 else e.compute_cnt) := by
        split <;> omega
      have hcc8 : (if e.compute_cnt < 8 then e.compute_cnt + 1 else e.compute_cnt) ≤ 8 := by
        split <;> omega
      have hccpos : (1 : ℤ) ≤ (if e.compute_cnt < 8 then e.compute_cnt + 1 else e.compute_cnt) := by
        split
        · omega
        · by_cases hn : e.etx = none
          · rw [h5] at hn; omega
          · rcases Option.ne_none_iff_exists.mp hn with ⟨q, hq⟩
            have : e.etx ≠ none := hn
            have : ¬(e.compute_cnt = 0) := fun h0 => this (h5.mpr h0)
            omega
      refine ⟨le_refl 0, le_refl 0, hcc0, hcc8, by simp; omega, ?_⟩
      intro q hq
      simp only [Option.some.injEq] at hq
      subst hq
      have hccq : (1 : ℚ) ≤ ((if e.compute_cnt < 8 then e.compute_cnt + 1 else e.compute_cnt : ℤ) : ℚ) := by
        exact_mod_cast hccpos
      have hccq0 : (0 : ℚ) < ((if e.compute_cnt < 8 then e.compute_cnt + 1 else e.compute_cnt : ℤ) : ℚ) :=
        lt_of_lt_of_le one_pos hccq
      have hsf0 : (0 : ℚ) < 1 / ((if e.compute_cnt < 8 then e.compute_cnt + 1 else e.compute_cnt : ℤ) : ℚ) :=
        div_pos one_pos hccq0
      have hsf1 : 1 / ((if e.compute_cnt < 8 then e.compute_cnt + 1 else e.compute_cnt : ℤ) : ℚ) ≤ 1 := by
        rw [div_le_one hccq0]; exact hccq
      exact etx_ewma_bounds e.etx _ _ h6 (etx_raw_bounds e.tx_cnt e.ack_cnt h1 h2) hsf0 hsf1
  · simp only [hr, if_false]
    exact ⟨h1, h2, h3, h4, h5, h6⟩

theorem etxInv_step (ctx : WsEtxCtx) (e : WsEtx) (ev : EtxEvent)
    (hinv : EtxInv e) (hok : EtxEventOk ev) :
    EtxInv (ws_etx_step ctx e ev) := by
  cases ev with
  | update tx_count ack => exact etxInv_update e tx_count ack hinv hok
  | fireCompute => exact etxInv_fireCompute ctx e hinv
  | fireOutdated =>
      obtain ⟨h1, h2, h3, h4, h5, h6⟩ := hinv
      unfold ws_etx_step
      by_cases hr : e.timer_outdated_running <;> simp only [hr, if_true, if_false]
      · unfold ws_etx_timeout_outdated
        by_cases hcb : ctx.has_on_etx_outdated = true <;>
          simp only [hcb, if_true, if_false] <;> exact ⟨h1, h2, h3, h4, h5, h6⟩
      · exact ⟨h1, h2, h3, h4, h5, h6⟩
  | reset => exact etxInv_reset e

theorem etxInv_run (ctx : WsEtxCtx) (evs : List EtxEvent)
    (hok : ∀ ev ∈ evs, EtxEventOk ev) : EtxInv (ws_etx_run ctx evs) := by
  unfold ws_etx_run
  induction evs using List.reverseRecOn with
  | nil => exact etxInv_init
  | append_singleton evs ev ih =>
      rw [List.foldl_append, List.foldl_cons, List.foldl_nil]
      exact etxInv_step ctx _ ev (ih (fun e he => hok e (List.mem_append_left _ he)))
        (hok ev (List.mem_append_right _ (List.mem_singleton_self ev)))

/-- C4, counterexample.  The claim asserts that after at least one computation
the stored ETX lies in [128, 1024] for all inputs.  A single TX confirmation
reported with `tx_count = 0` and `ack = true` (the raw formula then gives
`min(0/1 * 128, 1024) = 0`) drives the stored ETX to 0 at the first
computation, outside the claimed range. -/
theorem etx_range_counterexample :
    (ws_etx_run ⟨4, true, true⟩ [.update 0 true, .fireCompute]).compute_cnt = 1 ∧
    (ws_etx_run ⟨4, true, true⟩ [.update 0 true, .fireCompute]).etx = some 0 ∧
    ¬(128 ≤ (0 : ℚ) ∧ (0 : ℚ) ≤ 1024) := by
  refine ⟨?_, ?_, by norm_num⟩ <;>
    norm_num [ws_etx_run, ws_etx_step, ws_etx_update, ws_etx_timeout_compute,
      ws_ewma_next, ws_etx_init, WS_ETX_MAX, min_def, List.foldl_cons, List.foldl_nil]

/-- C4 (amended): for every sequence of `ws_etx_update` calls, timer firings
and resets in which every update reports at least one transmission attempt
(`tx_count >= 1`), the stored `etx` field is NaN exactly as long as no
computation has occurred since the last reset, and once a computation has
occurred it lies in [128, 1024] (raw value
`ack_cnt ? min(tx_cnt/ack_cnt * 128, 1024) : 1024`, blended by EWMA). -/
theorem etx_range_amended (ctx : WsEtxCtx) (evs : List EtxEvent)
    (hok : ∀ ev ∈ evs, EtxEventOk ev) :
    ((ws_etx_run ctx evs).etx = none ↔ (ws_etx_run ctx evs).compute_cnt = 0) ∧
    (∀ q : ℚ, (ws_etx_run ctx evs).etx = some q → 128 ≤ q ∧ q ≤ 1024) := by
  have h := etxInv_run ctx evs hok
  exact ⟨h.2.2.2.2.1, h.2.2.2.2.2⟩

theorem etx_range_amended_witness :
    (∀ ev ∈ ([.update 2 true, .fireCompute, .update 1 false, .fireCompute] : List EtxEvent),
      EtxEventOk ev) ∧
    (((ws_etx_run ⟨1, true, true⟩ [.update 2 true, .fireCompute, .update 1 false, .fireCompute]).etx = none ↔
      (ws_etx_run ⟨1, true, true⟩ [.update 2 true, .fireCompute, .update 1 false, .fireCompute]).compute_cnt = 0) ∧
     (∀ q : ℚ, (ws_etx_run ⟨1, true, true⟩ [.update 2 true, .fireCompute, .update 1 false, .fireCompute]).etx = some q →
        128 ≤ q ∧ q ≤ 1024)) :=
  ⟨by decide, etx_range_amended ⟨1, true, true⟩ _ (by decide)⟩

/-- C6, counterexample.  When the compute timer fires with the epoch
condition unmet, the claim asserts the handler invokes `on_etx_outdated`.
In the source the invocation is additionally gated on
`timer_stopped(&ws_etx->timer_outdated)`: in the state below (reachable right
after a computation, whose epilogue restarts the outdated timer) the outdated
timer is still running, and no callback is invoked, although a callback is
registered and the epoch condition is unmet. -/
theorem etx_compute_skip_counterexample :
    (¬((⟨some 500, 1, 1, 1, 3, true, true, 0, 0⟩ : WsEtx).tx_req_cnt ≥
        (⟨4, true, true⟩ : WsEtxCtx).update_min_tx_req_cnt) ∧
      (⟨some 500, 1, 1, 1, 3, true, true, 0, 0⟩ : WsEtx).etx ≠ none ∧
      (⟨4, true, true⟩ : WsEtxCtx).has_on_etx_outdated = true) ∧
    (ws_etx_step ⟨4, true, true⟩ ⟨some 500, 1, 1, 1, 3, true, true, 0, 0⟩ .fireCompute).outdated_calls = 0 ∧
    (ws_etx_step ⟨4, true, true⟩ ⟨some 500, 1, 1, 1, 3, true, true, 0, 0⟩ .fireCompute).tx_cnt = 1 ∧
    (ws_etx_step ⟨4, true, true⟩ ⟨some 500, 1, 1, 1, 3, true, true, 0, 0⟩ .fireCompute).etx = some 500 := by
  decide

/-- C6 (amended): when the compute timer fires and the epoch condition is not
met (`tx_req_cnt` below `update_min_tx_req_cnt` and a previous computation
exists), the handler leaves `tx_cnt`, `ack_cnt`, `tx_req_cnt`, `compute_cnt`
and `etx` unchanged (no computation, no counter reset), and it invokes the
`on_etx_outdated` callback if and only if the outdated timer is stopped and a
callback is registered. -/
theorem etx_compute_skip_amended (ctx : WsEtxCtx) (e : WsEtx)
    (hrun : e.timer_compute_running = true)
    (hreq : ¬(e.tx_req_cnt ≥ ctx.update_min_tx_req_cnt))
    (hnan : e.etx ≠ none) :
    (ws_etx_step ctx e .fireCompute).tx_cnt = e.tx_cnt ∧
    (ws_etx_step ctx e .fireCompute).ack_cnt = e.ack_cnt ∧
    (ws_etx_step ctx e .fireCompute).tx_req_cnt = e.tx_req_cnt ∧
    (ws_etx_step ctx e .fireCompute).compute_cnt = e.compute_cnt ∧
    (ws_etx_step ctx e .fireCompute).etx = e.etx ∧
    (ws_etx_step ctx e .fireCompute).outdated_calls = e.outdated_calls +
      (if ¬e.timer_outdated_running ∧ ctx.has_on_etx_outdated = true then 1 else 0) ∧
    (ws_etx_step ctx e .fireCompute).update_calls = e.update_calls := by
  unfold ws_etx_step ws_etx_timeout_compute
  simp only [hrun, if_true]
  have hcond : ¬(({e with timer_compute_running := false} : WsEtx).tx_req_cnt ≥
      ctx.update_min_tx_req_cnt ∨
      ({e with timer_compute_running := false} : WsEtx).etx = none) := by
    intro h
    rcases h with h | h
    · exact hreq h
    · exact hnan h
  rw [if_pos hcond]
  by_cases hcb : ¬e.timer_outdated_running = true ∧ ctx.has_on_etx_outdated = true
  · rw [if_pos hcb, if_pos hcb]
    exact ⟨rfl, rfl, rfl, rfl, rfl, rfl, rfl⟩
  · rw [if_neg hcb, if_neg hcb]
    exact ⟨rfl, rfl, rfl, rfl, rfl, rfl, rfl⟩

theorem etx_compute_skip_amended_witness :
    ((⟨some 500, 1, 1, 1, 3, true, false, 0, 0⟩ : WsEtx).timer_compute_running = true ∧
     ¬((⟨some 500, 1, 1, 1, 3, true, false, 0, 0⟩ : WsEtx).tx_req_cnt ≥
        (⟨4, true, true⟩ : WsEtxCtx).update_min_tx_req_cnt) ∧
     (⟨some 500, 1, 1, 1, 3, true, false, 0, 0⟩ : WsEtx).etx ≠ none) ∧
    ((ws_etx_step ⟨4, true, true⟩ ⟨some 500, 1, 1, 1, 3, true, false, 0, 0⟩ .fireCompute).tx_cnt =
      (⟨some 500, 1, 1, 1, 3, true, false, 0, 0⟩ : WsEtx).tx_cnt ∧
     (ws_etx_step ⟨4, true, true⟩ ⟨some 500, 1, 1, 1, 3, true, false, 0, 0⟩ .fireCompute).ack_cnt =
      (⟨some 500, 1, 1, 1, 3, true, false, 0, 0⟩ : WsEtx).ack_cnt ∧
     (ws_etx_step ⟨4, true, true⟩ ⟨some 500, 1, 1, 1, 3, true, false, 0, 0⟩ .fireCompute).tx_req_cnt =
      (⟨some 500, 1, 1, 1, 3, true, false, 0, 0⟩ : WsEtx).tx_req_cnt ∧
     (ws_etx_step ⟨4, true, true⟩ ⟨some 500, 1, 1, 1, 3, true, false, 0, 0⟩ .fireCompute).compute_cnt =
      (⟨some 500, 1, 1, 1, 3, true, false, 0, 0⟩ : WsEtx).compute_cnt ∧
     (ws_etx_step ⟨4, true, true⟩ ⟨some 500, 1, 1, 1, 3, true, false, 0, 0⟩ .fireCompute).etx =
      (⟨some 500, 1, 1, 1, 3, true, false, 0, 0⟩ : WsEtx).etx ∧
     (ws_etx_step ⟨4, true, true⟩ ⟨some 500, 1, 1, 1, 3, true, false, 0, 0⟩ .fireCompute).outdated_calls =
      (⟨some 500, 1, 1, 1, 3, true, false, 0, 0⟩ : WsEtx).outdated_calls +
        (if ¬(⟨some 500, 1, 1, 1, 3, true, false, 0, 0⟩ : WsEtx).timer_outdated_running ∧
            (⟨4, true, true⟩ : WsEtxCtx).has_on_etx_outdated = true then 1 else 0) ∧
     (ws_etx_step ⟨4, true, true⟩ ⟨some 500, 1, 1, 1, 3, true, false, 0, 0⟩ .fireCompute).update_calls =
      (⟨some 500, 1, 1, 1, 3, true, false, 0, 0⟩ : WsEtx).update_calls) :=
  ⟨⟨rfl, by decide, by decide⟩,
   etx_compute_skip_amended ⟨4, true, true⟩ ⟨some 500, 1, 1, 1, 3, true, false, 0, 0⟩
     rfl (by decide) (by decide)⟩

/-! ## Supplicant session store (app_wsrd/supplicant/supplicant_storage.c)

`supp_storage_load` parses the `network-keys` storage file line by line and
dispatches on the key name (`fnmatch` chain).  The model works at the level of
already-parsed lines: string/byte-array parsing (`storage_parse_line`,
`parse_byte_array`, `strtoul`) is the external `key_value_storage` layer, so a
line is embedded as a `SuppEntry` carrying the parsed numeric payload.
The EUI-64 is embedded as a number (only equality on it matters); key material
is reduced to an installed flag.  `FATAL`/`FATAL_ON` aborts the process and is
modelled as `Except.error`.  The model covers the parsing loop of
`supp_storage_load` (lines 45-86); the subsequent expiration sweep only arms
expiration timers or clears keys that are already expired. -/

/-- One parsed line of the `network-keys` storage file. -/
inductive SuppEntry where
  | eui64 (v : ℕ)
  | pmk
  | pmkReplayCounter (v : ℕ)
  | ptk
  | gtkKey (i : ℕ)
  | gtkExpiration (i : ℕ) (v : ℕ)
  | gtkFrameCounter (i : ℕ) (v : ℕ)
  | lgtkKey (i : ℕ)
  | lgtkExpiration (i : ℕ) (v : ℕ)
  | lgtkFrameCounter (i : ℕ) (v : ℕ)
  | unknownKey
  deriving DecidableEq, Repr

/-- Modelled from the spec: `WS_GTK_COUNT` (common/specs/ws.h is not in the
sources) — Wi-SUN FAN uses 4 GTKs; LGTK slots are stored at offset
`WS_GTK_COUNT` in `supp->gtks`.  Only the offset matters here. -/
def WS_GTK_COUNT : ℕ := 4

/-- `#define FRAME_COUNTER_OFFSET 200000` (supplicant_storage.c line 30). -/
def FRAME_COUNTER_OFFSET : ℕ := 200000

/-- `add32sat` (common/mathutils.h): 32-bit addition with saturation.
`uint32_t sum = a + b; return sum < a ? UINT32_MAX : sum;` -/
def add32sat (a b : ℕ) : ℕ :=
  if (a + b) % 2 ^ 32 < a then 2 ^ 32 - 1 else (a + b) % 2 ^ 32

/-- The supplicant state touched by `supp_storage_load`'s parsing loop.
GTK slots `i < WS_GTK_COUNT` are GTKs, slots `WS_GTK_COUNT + j` are LGTKs. -/
structure SuppState where
  pmk_installed : Bool
  pmk_replay_counter : ℕ
  ptk_installed : Bool
  gtk_installed : ℕ → Bool
  gtk_expiration_ts_ms : ℕ → ℕ
  frame_counter : ℕ → ℕ

/-- Effect of one parsed storage line in `supp_storage_load`'s loop.
On an `eui64` line the code runs
`FATAL_ON(!eui64_eq(&eui64, &supp->cfg->eui64), 1, "eui64 mismatch ...")`.
Frame-counter lines install `add32sat((uint32_t)strtoul(value), FRAME_COUNTER_OFFSET)`. -/
def supp_storage_load_entry (cfg_eui64 : ℕ) (s : SuppState) :
    SuppEntry → Except String SuppState
  | .eui64 v =>
      if v = cfg_eui64 then .ok s
      else .error "eui64 mismatch between current and previous state loaded from storage"
  | .pmk => .ok { s with pmk_installed := true }
  | .pmkReplayCounter v => .ok { s with pmk_replay_counter := v }
  | .ptk => .ok { s with ptk_installed := true }
  | .gtkKey i => .ok { s with gtk_installed := Function.update s.gtk_installed i true }
  | .gtkExpiration i v =>
      .ok { s with gtk_expiration_ts_ms := Function.update s.gtk_expiration_ts_ms i v }
  | .gtkFrameCounter i v =>
      .ok { s with frame_counter :=
                     Function.update s.frame_counter i
                       (add32sat (v % 2 ^ 32) FRAME_COUNTER_OFFSET) }
  | .lgtkKey i =>
      .ok { s with gtk_installed := Function.update s.gtk_installed (i + WS_GTK_COUNT) true }
  | .lgtkExpiration i v =>
      .ok { s with gtk_expiration_ts_ms :=
                     Function.update s.gtk_expiration_ts_ms (i + WS_GTK_COUNT) v }
  | .lgtkFrameCounter i v =>
      .ok { s with frame_counter :=
                     Function.update s.frame_counter (i + WS_GTK_COUNT)
                       (add32sat (v % 2 ^ 32) FRAME_COUNTER_OFFSET) }
  | .unknownKey => .ok s

/-- The parsing loop of `supp_storage_load` over the parsed lines. -/
def supp_storage_load (cfg_eui64 : ℕ) (s : SuppState) :
    List SuppEntry → Except String SuppState
  | [] => .ok s
  | e :: rest =>
      match supp_storage_load_entry cfg_eui64 s e with
      | .ok s' => supp_storage_load cfg_eui64 s' rest
      | .error msg => .error msg

theorem supp_storage_load_append (cfg : ℕ) (s : SuppState) (l1 l2 : List SuppEntry) :
    supp_storage_load cfg s (l1 ++ l2) =
      match supp_storage_load cfg s l1 with
      | .ok s1 => supp_storage_load cfg s1 l2
      | .error msg => .error msg := by
  induction l1 generalizing s with
  | nil => rfl
  | cons e rest ih =>
      simp only [List.cons_append, supp_storage_load]
      cases supp_storage_load_entry cfg s e with
      | ok s' => exact ih s'
      | error msg => rfl

/-- C8: when the stored session contains an `eui64` line, the load fatally
aborts if the stored EUI-64 differs from the configured one, and otherwise
continues loading the remaining lines from the state reached so far. -/
theorem supp_storage_eui64_check (cfg : ℕ) (s : SuppState) (v : ℕ)
    (l1 rest : List SuppEntry) (s1 : SuppState)
    (h : supp_storage_load cfg s l1 = .ok s1) :
    supp_storage_load cfg s (l1 ++ SuppEntry.eui64 v :: rest) =
      if v = cfg then supp_storage_load cfg s1 rest
      else .error "eui64 mismatch between current and previous state loaded from storage" := by
  rw [supp_storage_load_append, h]
  by_cases hv : v = cfg
  · simp only [hv, if_true, supp_storage_load, supp_storage_load_entry, if_pos rfl]
  · simp only [hv, if_false, supp_storage_load, supp_storage_load_entry, if_neg hv]

/-- A concrete zeroed supplicant state, used by the witnesses. -/
def supp_state_zero : SuppState :=
  ⟨false, 0, false, fun _ => false, fun _ => 0, fun _ => 0⟩

theorem supp_storage_eui64_check_witness :
    supp_storage_load 7 supp_state_zero [SuppEntry.gtkKey 0] =
      .ok { supp_state_zero with
              gtk_installed := Function.update supp_state_zero.gtk_installed 0 true } ∧
    supp_storage_load 7 supp_state_zero
        ([SuppEntry.gtkKey 0] ++ SuppEntry.eui64 9 :: [SuppEntry.ptk]) =
      .error "eui64 mismatch between current and previous state loaded from storage" ∧
    supp_storage_load 7 supp_state_zero
        ([SuppEntry.gtkKey 0] ++ SuppEntry.eui64 7 :: [SuppEntry.ptk]) =
      supp_storage_load 7
        { supp_state_zero with
            gtk_installed := Function.update supp_state_zero.gtk_installed 0 true }
        [SuppEntry.ptk] := by
  refine ⟨rfl, ?_, ?_⟩
  · rw [supp_storage_eui64_check 7 supp_state_zero 9 [SuppEntry.gtkKey 0] [SuppEntry.ptk] _ rfl]
    rfl
  · rw [supp_storage_eui64_check 7 supp_state_zero 7 [SuppEntry.gtkKey 0] [SuppEntry.ptk] _ rfl]
    rfl

theorem add32sat_offset (v : ℕ) (hv : v < 2 ^ 32) :
    add32sat v FRAME_COUNTER_OFFSET = min (v + FRAME_COUNTER_OFFSET) (2 ^ 32 - 1) ∧
    (add32sat v FRAME_COUNTER_OFFSET = 2 ^ 32 - 1 ∨ v < add32sat v FRAME_COUNTER_OFFSET) := by
  unfold add32sat FRAME_COUNTER_OFFSET
  constructor
  · rw [Nat.min_def]
    split <;> split <;> omega
  · split <;> omega

theorem frame_counter_mem_lift {i v : ℕ} {e : SuppEntry} {rest : List SuppEntry}
    (h : SuppEntry.gtkFrameCounter i v ∈ rest ∨
         ∃ j : ℕ, i = j + WS_GTK_COUNT ∧ SuppEntry.lgtkFrameCounter j v ∈ rest) :
    SuppEntry.gtkFrameCounter i v ∈ e :: rest ∨
      ∃ j : ℕ, i = j + WS_GTK_COUNT ∧ SuppEntry.lgtkFrameCounter j v ∈ e :: rest := by
  rcases h with hg | ⟨k, hk, hl⟩
  · exact Or.inl (List.mem_cons_of_mem _ hg)
  · exact Or.inr ⟨k, hk, List.mem_cons_of_mem _ hl⟩

/-- C9: every frame counter restored by `supp_storage_load`'s loop equals the
stored value plus `FRAME_COUNTER_OFFSET = 200000` saturated at `2^32 - 1`
(never the raw stored value, and never a wrapped mod-`2^32` sum), so it is
strictly ahead of the persisted value unless saturated at `UINT32_MAX`. -/
theorem supp_storage_frame_counter_offset (cfg : ℕ) (s : SuppState)
    (entries : List SuppEntry) (s' : SuppState)
    (h : supp_storage_load cfg s entries = .ok s') :
    ∀ i : ℕ, s'.frame_counter i = s.frame_counter i ∨
      ∃ v : ℕ,
        (SuppEntry.gtkFrameCounter i v ∈ entries ∨
         ∃ j : ℕ, i = j + WS_GTK_COUNT ∧ SuppEntry.lgtkFrameCounter j v ∈ entries) ∧
        s'.frame_counter i = add32sat (v % 2 ^ 32) FRAME_COUNTER_OFFSET ∧
        s'.frame_counter i = min (v % 2 ^ 32 + FRAME_COUNTER_OFFSET) (2 ^ 32 - 1) ∧
        (s'.frame_counter i = 2 ^ 32 - 1 ∨ v % 2 ^ 32 < s'.frame_counter i) := by
  induction entries generalizing s with
  | nil =>
      intro i
      left
      simp only [supp_storage_load] at h
      cases h
      rfl
  | cons e rest ih =>
      intro i
      simp only [supp_storage_load] at h
      cases e with
      | gtkFrameCounter j v =>
          simp only [supp_storage_load_entry] at h
          rcases ih _ h i with hsame | ⟨w, hmem, hval⟩
          · by_cases hij : i = j
            · subst hij
              right
              have h1 : s'.frame_counter i = add32sat (v % 2 ^ 32) FRAME_COUNTER_OFFSET :=
                hsame.trans (Function.update_same i _ s.frame_counter)
              have hb := add32sat_offset (v % 2 ^ 32) (Nat.mod_lt _ (by norm_num))
              refine ⟨v, Or.inl (List.mem_cons_self _ _), h1, h1.trans hb.1, ?_⟩
              rw [h1]
              exact hb.2
            · left
              exact hsame.trans (Function.update_noteq hij _ s.frame_counter)
          · exact Or.inr ⟨w, frame_counter_mem_lift hmem, hval⟩
      | lgtkFrameCounter j v =>
          simp only [supp_storage_load_entry] at h
          rcases ih _ h i with hsame | ⟨w, hmem, hval⟩
          · by_cases hij : i = j + WS_GTK_COUNT
            · subst hij
              right
              have h1 : s'.frame_counter (j + WS_GTK_COUNT) =
                  add32sat (v % 2 ^ 32) FRAME_COUNTER_OFFSET :=
                hsame.trans (Function.update_same (j + WS_GTK_COUNT) _ s.frame_counter)
              have hb := add32sat_offset (v % 2 ^ 32) (Nat.mod_lt _ (by norm_num))
              refine ⟨v, Or.inr ⟨j, rfl, List.mem_cons_self _ _⟩, h1, h1.trans hb.1, ?_⟩
              rw [h1]
              exact hb.2
            · left
              exact hsame.trans (Function.update_noteq hij _ s.frame_counter)
          · exact Or.inr ⟨w, frame_counter_mem_lift hmem, hval⟩
      | eui64 v =>
          simp only [supp_storage_load_entry] at h
          by_cases hv : v = cfg
          · rw [if_pos hv] at h
            rcases ih _ h i with hsame | ⟨w, hmem, hval⟩
            · exact Or.inl hsame
            · exact Or.inr ⟨w, frame_counter_mem_lift hmem, hval⟩
          · rw [if_neg hv] at h
            cases h
      | pmk =>
          simp only [supp_storage_load_entry] at h
          rcases ih _ h i with hsame | ⟨w, hmem, hval⟩
          · exact Or.inl hsame
          · exact Or.inr ⟨w, frame_counter_mem_lift hmem, hval⟩
      | pmkReplayCounter v =>
          simp only [supp_storage_load_entry] at h
          rcases ih _ h i with hsame | ⟨w, hmem, hval⟩
          · exact Or.inl hsame
          · exact Or.inr ⟨w, frame_counter_mem_lift hmem, hval⟩
      | ptk =>
          simp only [supp_storage_load_entry] at h
          rcases ih _ h i with hsame | ⟨w, hmem, hval⟩
          · exact Or.inl hsame
          · exact Or.inr ⟨w, frame_counter_mem_lift hmem, hval⟩
      | gtkKey j =>
          simp only [supp_storage_load_entry] at h
          rcases ih _ h i with hsame | ⟨w, hmem, hval⟩
          · exact Or.inl hsame
          · exact Or.inr ⟨w, frame_counter_mem_lift hmem, hval⟩
      | gtkExpiration j v =>
          simp only [supp_storage_load_entry] at h
          rcases ih _ h i with hsame | ⟨w, hmem, hval⟩
          · exact Or.inl hsame
          · exact Or.inr ⟨w, frame_counter_mem_lift hmem, hval⟩
      | lgtkKey j =>
          simp only [supp_storage_load_entry] at h
          rcases ih _ h i with hsame | ⟨w, hmem, hval⟩
          · exact Or.inl hsame
          · exact Or.inr ⟨w, frame_counter_mem_lift hmem, hval⟩
      | lgtkExpiration j v =>
          simp only [supp_storage_load_entry] at h
          rcases ih _ h i with hsame | ⟨w, hmem, hval⟩
          · exact Or.inl hsame
          · exact Or.inr ⟨w, frame_counter_mem_lift hmem, hval⟩
      | unknownKey =>
          simp only [supp_storage_load_entry] at h
          rcases ih _ h i with hsame | ⟨w, hmem, hval⟩
          · exact Or.inl hsame
          · exact Or.inr ⟨w, frame_counter_mem_lift hmem, hval⟩

theorem supp_storage_frame_counter_offset_witness :
    supp_storage_load 7 supp_state_zero
        [SuppEntry.gtkFrameCounter 0 1000, SuppEntry.lgtkFrameCounter 1 4294967295] =
      .ok { supp_state_zero with
              frame_counter :=
                Function.update
                  (Function.update supp_state_zero.frame_counter 0
                    (add32sat (1000 % 2 ^ 32) FRAME_COUNTER_OFFSET))
                  (1 + WS_GTK_COUNT)
                  (add32sat (4294967295 % 2 ^ 32) FRAME_COUNTER_OFFSET) } ∧
    ∀ i : ℕ,
      ({ supp_state_zero with
           frame_counter :=
             Function.update
               (Function.update supp_state_zero.frame_counter 0
                 (add32sat (1000 % 2 ^ 32) FRAME_COUNTER_OFFSET))
               (1 + WS_GTK_COUNT)
               (add32sat (4294967295 % 2 ^ 32) FRAME_COUNTER_OFFSET) } : SuppState).frame_counter i =
          supp_state_zero.frame_counter i ∨
      ∃ v : ℕ,
        (SuppEntry.gtkFrameCounter i v ∈
            [SuppEntry.gtkFrameCounter 0 1000, SuppEntry.lgtkFrameCounter 1 4294967295] ∨
         ∃ j : ℕ, i = j + WS_GTK_COUNT ∧
           SuppEntry.lgtkFrameCounter j v ∈
             [SuppEntry.gtkFrameCounter 0 1000, SuppEntry.lgtkFrameCounter 1 4294967295]) ∧
        ({ supp_state_zero with
             frame_counter :=
               Function.update
                 (Function.update supp_state_zero.frame_counter 0
                   (add32sat (1000 % 2 ^ 32) FRAME_COUNTER_OFFSET))
                 (1 + WS_GTK_COUNT)
                 (add32sat (4294967295 % 2 ^ 32) FRAME_COUNTER_OFFSET) } : SuppState).frame_counter i =
            add32sat (v % 2 ^ 32) FRAME_COUNTER_OFFSET ∧
        ({ supp_state_zero with
             frame_counter :=
               Function.update
                 (Function.update supp_state_zero.frame_counter 0
                   (add32sat (1000 % 2 ^ 32) FRAME_COUNTER_OFFSET))
                 (1 + WS_GTK_COUNT)
                 (add32sat (4294967295 % 2 ^ 32) FRAME_COUNTER_OFFSET) } : SuppState).frame_counter i =
            min (v % 2 ^ 32 + FRAME_COUNTER_OFFSET) (2 ^ 32 - 1) ∧
        (({ supp_state_zero with
              frame_counter :=
                Function.update
                  (Function.update supp_state_zero.frame_counter 0
                    (add32sat (1000 % 2 ^ 32) FRAME_COUNTER_OFFSET))
                  (1 + WS_GTK_COUNT)
                  (add32sat (4294967295 % 2 ^ 32) FRAME_COUNTER_OFFSET) } : SuppState).frame_counter i =
            2 ^ 32 - 1 ∨
         v % 2 ^ 32 <
          ({ supp_state_zero with
               frame_counter :=
                 Function.update
                   (Function.update supp_state_zero.frame_counter 0
                     (add32sat (1000 % 2 ^ 32) FRAME_COUNTER_OFFSET))
                   (1 + WS_GTK_COUNT)
                   (add32sat (4294967295 % 2 ^ 32) FRAME_COUNTER_OFFSET) } : SuppState).frame_counter i) :=
  ⟨rfl, supp_storage_frame_counter_offset 7 supp_state_zero
    [SuppEntry.gtkFrameCounter 0 1000, SuppEntry.lgtkFrameCounter 1 4294967295] _ rfl⟩


/-! ## 6LoWPAN fragment reassembly (6lowpan_frag.c)

`struct lowpan_reasm` keeps the datagram length (`uint16_t len`), the byte
buffer, and the RFC 815 hole list (`hole.first`/`hole.end`, an SLIST whose
head receives every insertion).  The source EUI-64/tag of the context play no
role in the update algorithm and are omitted.  The buffer is a total function
`ℕ → ℕ`; positions `≥ len` model the heap beyond the allocation (`memcpy` can
reach them, see `lowpan_frag_end_wrap_bug`). -/
structure LowpanReasm where
  len : ℕ
  buf : ℕ → ℕ
  holes : List (ℕ × ℕ)

/-- A byte `q` is inside one of the holes of the list. -/
def inHoles (holes : List (ℕ × ℕ)) (q : ℕ) : Prop :=
  ∃ h ∈ holes, h.1 ≤ q ∧ q < h.2

instance (holes : List (ℕ × ℕ)) (q : ℕ) : Decidable (inHoles holes q) := by
  unfold inHoles; infer_instance

/-- The RFC 815 hole-punching loop of `lowpan_reasm_update` (lines 91-114),
over a hole list `(first, end)` and a fragment range `[ff, fe)`.

The C loop keeps a `prev` pointer to unlink overlapping holes, but the loop
increment `prev = hole, hole = next` also advances `prev` onto a node that was
just removed and freed.  When the very next hole is removed as well, the
unlink write `SLIST_NEXT(prev, link) = next` lands in the freed node while the
node's live predecessor still points at it, so that hole stays in the list.
The model mirrors this exactly (with free modelled as non-reusing):
`prevRemoved` records whether the previous node was removed-and-unlinked; a
hole that overlaps is actually unlinked iff `prevRemoved` is false.  Split
holes are always allocated and prepended to the list head
(`lowpan_hole_add`), and are never revisited by the ongoing traversal.

Returns `(inserted split holes in chronological order, surviving original
nodes in order)`; the resulting SLIST is `inserted.reverse ++ surviving`. -/
def lowpan_punch_holes (ff fe : ℕ) :
    List (ℕ × ℕ) → Bool → List (ℕ × ℕ) × List (ℕ × ℕ)
  | [], _ => ([], [])
  | h :: rest, prevRemoved =>
      if ff ≥ h.2 ∨ fe ≤ h.1 then
        let r := lowpan_punch_holes ff fe rest false
        (r.1, h :: r.2)
      else
        let removed := !prevRemoved
        let r := lowpan_punch_holes ff fe rest removed
        ((if ff > h.1 then [(h.1, ff)] else []) ++
           (if fe < h.2 then [(fe, h.2)] else []) ++ r.1,
         (if removed then [] else [h]) ++ r.2)

/-- `lowpan_reasm_update`: validate the fragment range, punch the holes, copy
the payload.  `frag_first` and `frag_end` are `uint16_t` while `buf_len` is a
`size_t`, hence the `% 2^16` on `frag_end = frag_first + buf_len`; `offset`
is a `uint8_t` taken here as a natural number (the C callers can only pass
values below 256).  On `-EINVAL` the context is left untouched. -/
def lowpan_reasm_update (r : LowpanReasm) (buf : List ℕ) (offset : ℕ) :
    Except Unit LowpanReasm :=
  let frag_first := offset * 8 % 2 ^ 16
  let frag_end := (frag_first + buf.length) % 2 ^ 16
  if frag_end > r.len then .error ()
  else if frag_end ≠ r.len ∧ buf.length % 8 ≠ 0 then .error ()
  else
    let p := lowpan_punch_holes frag_first frag_end r.holes false
    .ok { r with
            holes := p.1.reverse ++ p.2,
            buf := fun q =>
              if frag_first ≤ q ∧ q < frag_first + buf.length then
                buf.getD (q - frag_first) 0
              else r.buf q }

/-- `lowpan_reasm_new` (lines 168-191), reduced to the context fields used by
the update algorithm: a zeroed buffer (`zalloc`) and a single hole `[0, len)`. -/
def lowpan_reasm_new (len : ℕ) : LowpanReasm :=
  { len := len, buf := fun _ => 0, holes := [(0, len)] }

/-- A received fragment: the 8-byte-unit offset field and its payload. -/
structure LowpanFrag where
  off : ℕ
  data : List ℕ

def LowpanFrag.first (f : LowpanFrag) : ℕ := f.off * 8

def LowpanFrag.stop (f : LowpanFrag) : ℕ := f.off * 8 + f.data.length

/-- Applying one fragment as `lowpan_frag_recv` does: on `-EINVAL` the
context is unchanged (the packet is dropped and the pktbuf poisoned). -/
def lowpan_reasm_apply (r : LowpanReasm) (f : LowpanFrag) : LowpanReasm :=
  match lowpan_reasm_update r f.data f.off with
  | .ok r' => r'
  | .error _ => r

theorem inHoles_append (l1 l2 : List (ℕ × ℕ)) (q : ℕ) :
    inHoles (l1 ++ l2) q ↔ inHoles l1 q ∨ inHoles l2 q := by
  simp only [inHoles, List.mem_append]
  constructor
  · rintro ⟨h, hmem | hmem, hq⟩
    · exact Or.inl ⟨h, hmem, hq⟩
    · exact Or.inr ⟨h, hmem, hq⟩
  · rintro (⟨h, hmem, hq⟩ | ⟨h, hmem, hq⟩)
    · exact ⟨h, Or.inl hmem, hq⟩
    · exact ⟨h, Or.inr hmem, hq⟩

theorem inHoles_reverse (l : List (ℕ × ℕ)) (q : ℕ) :
    inHoles l.reverse q ↔ inHoles l q := by
  simp only [inHoles, List.mem_reverse]

theorem inHoles_cons (h : ℕ × ℕ) (l : List (ℕ × ℕ)) (q : ℕ) :
    inHoles (h :: l) q ↔ (h.1 ≤ q ∧ q < h.2) ∨ inHoles l q := by
  simp only [inHoles, List.mem_cons]
  constructor
  · rintro ⟨g, rfl | hmem, hq⟩
    · exact Or.inl hq
    · exact Or.inr ⟨g, hmem, hq⟩
  · rintro (hq | ⟨g, hmem, hq⟩)
    · exact ⟨h, Or.inl rfl, hq⟩
    · exact ⟨g, Or.inr hmem, hq⟩

theorem inHoles_nil (q : ℕ) : ¬ inHoles [] q := by
  rintro ⟨h, hmem, _⟩
  exact absurd hmem (List.not_mem_nil h)


/-- Every hole surviving the punching loop is one of the original holes. -/
theorem mem_punch_surv (ff fe : ℕ) (holes : List (ℕ × ℕ)) :
    ∀ (b : Bool) (g : ℕ × ℕ), g ∈ (lowpan_punch_holes ff fe holes b).2 → g ∈ holes := by
  induction holes with
  | nil => intro b g hg; simp [lowpan_punch_holes] at hg
  | cons h rest ih =>
      intro b g hg
      by_cases hovl : ff ≥ h.2 ∨ fe ≤ h.1
      · simp only [lowpan_punch_holes, if_pos hovl, List.mem_cons] at hg
        rcases hg with rfl | hg
        · exact List.mem_cons_self _ _
        · exact List.mem_cons_of_mem _ (ih false g hg)
      · simp only [lowpan_punch_holes, if_neg hovl, List.mem_append] at hg
        rcases hg with hg | hg
        · have hgh : g = h := by
            split at hg
            · exact absurd hg (List.not_mem_nil g)
            · simpa using hg
          exact hgh ▸ List.mem_cons_self _ _
        · exact List.mem_cons_of_mem _ (ih _ g hg)

/-- Every hole inserted by the punching loop is a split of an overlapped
original hole: `(h.first, ff)` or `(fe, h.end)` for some overlapped `h`. -/
theorem mem_punch_ins (ff fe : ℕ) (holes : List (ℕ × ℕ)) :
    ∀ (b : Bool) (g : ℕ × ℕ), g ∈ (lowpan_punch_holes ff fe holes b).1 →
      ∃ h ∈ holes, ¬(ff ≥ h.2 ∨ fe ≤ h.1) ∧
        ((g = (h.1, ff) ∧ ff > h.1) ∨ (g = (fe, h.2) ∧ fe < h.2)) := by
  induction holes with
  | nil => intro b g hg; simp [lowpan_punch_holes] at hg
  | cons h rest ih =>
      intro b g hg
      by_cases hovl : ff ≥ h.2 ∨ fe ≤ h.1
      · simp only [lowpan_punch_holes, if_pos hovl] at hg
        obtain ⟨h', hmem, hrest⟩ := ih false g hg
        exact ⟨h', List.mem_cons_of_mem _ hmem, hrest⟩
      · simp only [lowpan_punch_holes, if_neg hovl, List.mem_append] at hg
        rcases hg with (hg | hg) | hg
        · by_cases hf : ff > h.1
          · rw [if_pos hf, List.mem_singleton] at hg
            exact ⟨h, List.mem_cons_self _ _, hovl, Or.inl ⟨hg, hf⟩⟩
          · rw [if_neg hf] at hg
            exact absurd hg (List.not_mem_nil g)
        · by_cases hf : fe < h.2
          · rw [if_pos hf, List.mem_singleton] at hg
            exact ⟨h, List.mem_cons_self _ _, hovl, Or.inr ⟨hg, hf⟩⟩
          · rw [if_neg hf] at hg
            exact absurd hg (List.not_mem_nil g)
        · obtain ⟨h', hmem, hrest⟩ := ih _ g hg
          exact ⟨h', List.mem_cons_of_mem _ hmem, hrest⟩

/-- Every original hole is accounted for by the punching loop: a
non-overlapped hole survives, and an overlapped hole has its (possibly empty)
left and right splits inserted. -/
theorem punch_covers (ff fe : ℕ) (holes : List (ℕ × ℕ)) :
    ∀ (b : Bool) (h : ℕ × ℕ), h ∈ holes →
      ((ff ≥ h.2 ∨ fe ≤ h.1) → h ∈ (lowpan_punch_holes ff fe holes b).2) ∧
      (¬(ff ≥ h.2 ∨ fe ≤ h.1) →
        (ff > h.1 → (h.1, ff) ∈ (lowpan_punch_holes ff fe holes b).1) ∧
        (fe < h.2 → (fe, h.2) ∈ (lowpan_punch_holes ff fe holes b).1)) := by
  induction holes with
  | nil => intro b h hmem; exact absurd hmem (List.not_mem_nil h)
  | cons h0 rest ih =>
      intro b h hmem
      rcases List.mem_cons.mp hmem with rfl | hmem
      · by_cases hovl : ff ≥ h.2 ∨ fe ≤ h.1
        · refine ⟨fun _ => ?_, fun habs => absurd hovl habs⟩
          simp only [lowpan_punch_holes, if_pos hovl]
          exact List.mem_cons_self _ _
        · refine ⟨fun habs => absurd habs hovl, fun _ => ⟨fun hf => ?_, fun hf => ?_⟩⟩
          · simp only [lowpan_punch_holes, if_neg hovl, List.mem_append, if_pos hf]
            exact Or.inl (Or.inl (List.mem_singleton_self _))
          · simp only [lowpan_punch_holes, if_neg hovl, List.mem_append, if_pos hf]
            exact Or.inl (Or.inr (List.mem_singleton_self _))
      · by_cases hovl0 : ff ≥ h0.2 ∨ fe ≤ h0.1
        · have := ih false h hmem
          constructor
          · intro hc
            simp only [lowpan_punch_holes, if_pos hovl0, List.mem_cons]
            exact Or.inr (this.1 hc)
          · intro hc
            simp only [lowpan_punch_holes, if_pos hovl0]
            exact (this.2 hc)
        · have := ih (!b) h hmem
          constructor
          · intro hc
            simp only [lowpan_punch_holes, if_neg hovl0, List.mem_append]
            exact Or.inr (this.1 hc)
          · intro hc
            refine ⟨fun hf => ?_, fun hf => ?_⟩ <;>
              simp only [lowpan_punch_holes, if_neg hovl0, List.mem_append]
            · exact Or.inr ((this.2 hc).1 hf)
            · exact Or.inr ((this.2 hc).2 hf)

/-- C10: applying a zero-length fragment at any in-range offset succeeds,
changes no buffer byte, leaves the union of bytes covered by the hole list
unchanged, and never empties a nonempty hole list — so a zero-length fragment
can never complete a datagram. -/
theorem lowpan_zero_fragment (r : LowpanReasm) (offset : ℕ)
    (hlen : r.len < 2 ^ 16) (hoff : offset * 8 ≤ r.len) :
    ∃ r' : LowpanReasm, lowpan_reasm_update r [] offset = .ok r' ∧
      (∀ q : ℕ, r'.buf q = r.buf q) ∧
      (∀ q : ℕ, inHoles r'.holes q ↔ inHoles r.holes q) ∧
      (r.holes ≠ [] → r'.holes ≠ []) := by
  have hff : offset * 8 % 2 ^ 16 = offset * 8 := Nat.mod_eq_of_lt (by omega)
  unfold lowpan_reasm_update
  simp only [List.length_nil, Nat.add_zero, hff]
  rw [if_neg (by omega : ¬ offset * 8 > r.len)]
  rw [if_neg (by simp : ¬(offset * 8 ≠ r.len ∧ 0 % 8 ≠ 0))]
  set x := offset * 8 with hx
  refine ⟨_, rfl, ?_, ?_, ?_⟩
  · intro q
    simp only []
    rw [if_neg (by omega)]
  · intro q
    simp only []
    rw [inHoles_append, inHoles_reverse]
    constructor
    · rintro (⟨g, hmem, hq⟩ | ⟨g, hmem, hq⟩)
      · obtain ⟨h, hmem', hovl, hsplit⟩ := mem_punch_ins x x r.holes false g hmem
        push_neg at hovl
        rcases hsplit with ⟨rfl, _⟩ | ⟨rfl, _⟩
        · exact ⟨h, hmem', by omega, by simp at hq; omega⟩
        · exact ⟨h, hmem', by simp at hq; omega, by simp at hq; omega⟩
      · exact ⟨g, mem_punch_surv x x r.holes false g hmem, hq⟩
    · rintro ⟨h, hmem, hq⟩
      by_cases hovl : x ≥ h.2 ∨ x ≤ h.1
      · exact Or.inr ⟨h, (punch_covers x x r.holes false h hmem).1 hovl, hq⟩
      · push_neg at hovl
        have hc := (punch_covers x x r.holes false h hmem).2 (by push_neg; exact hovl)
        rcases Nat.lt_or_ge q x with hqx | hqx
        · exact Or.inl ⟨(h.1, x), hc.1 hovl.2, by simp; omega⟩
        · exact Or.inl ⟨(x, h.2), hc.2 hovl.1, by simp; omega⟩
  · intro hne habs
    simp only [] at habs
    rcases List.exists_mem_of_ne_nil r.holes hne with ⟨h, hmem⟩
    by_cases hovl : x ≥ h.2 ∨ x ≤ h.1
    · have := (punch_covers x x r.holes false h hmem).1 hovl
      rw [List.append_eq_nil] at habs
      rw [habs.2] at this
      exact absurd this (List.not_mem_nil h)
    · push_neg at hovl
      have := (punch_covers x x r.holes false h hmem).2 (by push_neg; exact hovl)
      have hmem2 : (h.1, x) ∈ (lowpan_punch_holes x x r.holes false).1 := this.1 hovl.2
      rw [List.append_eq_nil] at habs
      have : (h.1, x) ∈ (lowpan_punch_holes x x r.holes false).1.reverse :=
        List.mem_reverse.mpr hmem2
      rw [habs.1] at this
      exact absurd this (List.not_mem_nil _)

theorem lowpan_zero_fragment_witness :
    (lowpan_reasm_new 16).len < 2 ^ 16 ∧ 1 * 8 ≤ (lowpan_reasm_new 16).len ∧
    (∃ r' : LowpanReasm, lowpan_reasm_update (lowpan_reasm_new 16) [] 1 = .ok r' ∧
      (∀ q : ℕ, r'.buf q = (lowpan_reasm_new 16).buf q) ∧
      (∀ q : ℕ, inHoles r'.holes q ↔ inHoles (lowpan_reasm_new 16).holes q) ∧
      ((lowpan_reasm_new 16).holes ≠ [] → r'.holes ≠ [])) :=
  ⟨by norm_num [lowpan_reasm_new], by norm_num [lowpan_reasm_new],
   lowpan_zero_fragment (lowpan_reasm_new 16) 1 (by norm_num [lowpan_reasm_new])
     (by norm_num [lowpan_reasm_new])⟩

/-- C7 (code bug): `frag_end` is a `uint16_t` but `buf_len` a `size_t`
(6lowpan_frag.c lines 73-79).  A fragment of 65536 bytes at offset 0 wraps:
`frag_end = (0 + 65536) mod 2^16 = 0`, both validation checks pass although
the fragment range `[0, 65536)` vastly exceeds `len = 8`, and
`lowpan_reasm_update` returns success — then `memcpy` writes 65536 bytes into
the 8-byte reassembly buffer.  The claim ("fails if and only if the range
exceeds len ...") requires this call to fail with a format error. -/
theorem lowpan_frag_end_wrap_bug :
    (List.replicate 65536 (0 : ℕ)).length = 65536 ∧
    0 * 8 + 65536 > (lowpan_reasm_new 8).len ∧
    ∃ r' : LowpanReasm,
      lowpan_reasm_update (lowpan_reasm_new 8) (List.replicate 65536 (0 : ℕ)) 0 = .ok r' := by
  refine ⟨List.length_replicate 65536 0, by norm_num [lowpan_reasm_new], ?_⟩
  unfold lowpan_reasm_update
  simp only [List.length_replicate]
  norm_num [lowpan_reasm_new]


/-- Wellformedness of a hole list: every hole is a nonempty in-range
interval, and distinct holes are separated by at least one filled byte. -/
def HolesWF (len : ℕ) (holes : List (ℕ × ℕ)) : Prop :=
  (∀ h ∈ holes, h.1 < h.2 ∧ h.2 ≤ len) ∧
  holes.Pairwise (fun h g => h.2 < g.1 ∨ g.2 < h.1)

/-- A list of fragments that are nonempty, wire-representable (`uint8_t`
offset), within the datagram, 8-byte aligned unless terminal, pairwise
disjoint, and carry the datagram's bytes at their own positions. -/
def FragsOk (len : ℕ) (data : List ℕ) (fs : List LowpanFrag) : Prop :=
  (∀ f ∈ fs, f.off < 256 ∧ 0 < f.data.length ∧ f.stop ≤ len ∧
     (f.stop = len ∨ f.data.length % 8 = 0) ∧
     (∀ k : ℕ, k < f.data.length → f.data.getD k 0 = data.getD (f.first + k) 0)) ∧
  fs.Pairwise (fun f g => f.stop ≤ g.first ∨ g.stop ≤ f.first)

/-- `fs` is a splitting of the byte sequence `data` of length `len` into
fragments at 8-byte-aligned offsets (the last one possibly shorter), listed
in an arbitrary order (this covers every permutation of a split). -/
def IsSplitOf (len : ℕ) (data : List ℕ) (fs : List LowpanFrag) : Prop :=
  data.length = len ∧ FragsOk len data fs ∧
  ∀ q : ℕ, q < len → ∃ f ∈ fs, f.first ≤ q ∧ q < f.stop

instance (len : ℕ) (data : List ℕ) (fs : List LowpanFrag) :
    Decidable (IsSplitOf len data fs) := by
  unfold IsSplitOf FragsOk LowpanFrag.first LowpanFrag.stop
  infer_instance

/-- Reassembly invariant while the fragments `fs` are still to be applied:
the hole list is wellformed and covers exactly the bytes of the pending
fragments, and every already-filled byte holds the datagram's byte. -/
def ReasmInv (len : ℕ) (data : List ℕ) (fs : List LowpanFrag) (r : LowpanReasm) : Prop :=
  r.len = len ∧ HolesWF len r.holes ∧
  (∀ q : ℕ, inHoles r.holes q ↔ ∃ f ∈ fs, f.first ≤ q ∧ q < f.stop) ∧
  (∀ q : ℕ, q < len → ¬ inHoles r.holes q → r.buf q = data.getD q 0)

/-- In a wellformed hole list, a nonempty contiguous range of covered bytes
lies inside a single hole. -/
theorem holes_single (len : ℕ) (holes : List (ℕ × ℕ)) (hwf : HolesWF len holes)
    (ff fe : ℕ) (hne : ff < fe)
    (hsub : ∀ q : ℕ, ff ≤ q → q < fe → inHoles holes q) :
    ∃ H ∈ holes, H.1 ≤ ff ∧ fe ≤ H.2 := by
  obtain ⟨H, hHmem, hH1, hH2⟩ := hsub ff (le_refl ff) hne
  refine ⟨H, hHmem, hH1, ?_⟩
  by_contra hcon
  push_neg at hcon
  obtain ⟨G, hGmem, hG1, hG2⟩ := hsub H.2 (le_of_lt hH2) hcon
  by_cases hEq : G = H
  · rw [hEq] at hG2
    omega
  · have hrel := List.Pairwise.forall
      (by
        intro a b hab
        rcases hab with h | h
        · exact Or.inr h
        · exact Or.inl h)
      hwf.2 hHmem hGmem (fun h => hEq h.symm)
    rcases hrel with h | h <;> omega

/-- The punching loop keeps every hole that does not overlap the fragment. -/
theorem punch_no_overlap (ff fe : ℕ) (holes : List (ℕ × ℕ))
    (h : ∀ g ∈ holes, ff ≥ g.2 ∨ fe ≤ g.1) :
    ∀ b : Bool, lowpan_punch_holes ff fe holes b = ([], holes) := by
  induction holes with
  | nil => intro b; rfl
  | cons g rest ih =>
      intro b
      have hovl : ff ≥ g.2 ∨ fe ≤ g.1 := h g (List.mem_cons_self _ _)
      simp only [lowpan_punch_holes, if_pos hovl,
        ih (fun g' hg' => h g' (List.mem_cons_of_mem _ hg')) false]

/-- The punching loop on a list in which exactly one hole `H` overlaps the
fragment: `H` is removed and replaced by its splits; everything else stays. -/
theorem punch_single (ff fe : ℕ) (l1 l2 : List (ℕ × ℕ)) (H : ℕ × ℕ)
    (h1 : ∀ g ∈ l1, ff ≥ g.2 ∨ fe ≤ g.1) (h2 : ∀ g ∈ l2, ff ≥ g.2 ∨ fe ≤ g.1)
    (hH : ¬(ff ≥ H.2 ∨ fe ≤ H.1)) :
    lowpan_punch_holes ff fe (l1 ++ H :: l2) false =
      ((if ff > H.1 then [(H.1, ff)] else []) ++
         (if fe < H.2 then [(fe, H.2)] else []), l1 ++ l2) := by
  induction l1 with
  | nil =>
      simp only [List.nil_append, lowpan_punch_holes, if_neg hH, Bool.not_false,
        punch_no_overlap ff fe l2 h2 true, if_pos rfl, List.append_nil]
      simp
  | cons g l1' ih =>
      have hovl : ff ≥ g.2 ∨ fe ≤ g.1 := h1 g (List.mem_cons_self _ _)
      simp only [List.cons_append, lowpan_punch_holes, if_pos hovl, List.append_eq,
        ih (fun g' hg' => h1 g' (List.mem_cons_of_mem _ hg'))]

/-- Coverage of the two split holes of an overlapped hole `H`: they cover
exactly `H` minus the fragment range. -/
theorem inHoles_splits (H : ℕ × ℕ) (ff fe q : ℕ) (hl : H.1 ≤ ff) (hr : fe ≤ H.2)
    (hffe : ff ≤ fe) :
    inHoles ((if ff > H.1 then [(H.1, ff)] else []) ++
               (if fe < H.2 then [(fe, H.2)] else [])) q ↔
      (H.1 ≤ q ∧ q < H.2 ∧ ¬(ff ≤ q ∧ q < fe)) := by
  by_cases ha : ff > H.1 <;> by_cases hb : fe < H.2 <;>
    simp only [ha, hb, if_true, if_false, inHoles_append, inHoles_cons] <;>
    simp [inHoles] <;> omega

/-- Applying a pending fragment of a split advances the reassembly
invariant: the fragment is accepted, its bytes land in the buffer, and the
hole covering it shrinks to the two split remainders. -/
theorem reasm_apply_step (len : ℕ) (data : List ℕ) (f : LowpanFrag)
    (fs : List LowpanFrag) (r : LowpanReasm) (hlen : len < 2 ^ 16)
    (hfs : FragsOk len data (f :: fs)) (hinv : ReasmInv len data (f :: fs) r) :
    ReasmInv len data fs (lowpan_reasm_apply r f) := by
  obtain ⟨hrlen, hwf, hcover, hbuf⟩ := hinv
  obtain ⟨hall, hdisj⟩ := hfs
  obtain ⟨hoffb, hpos, hstop, hmod, hdata⟩ := hall f (List.mem_cons_self _ _)
  have hfirst : f.first = f.off * 8 := rfl
  have hstopdef : f.stop = f.off * 8 + f.data.length := rfl
  have hfflt : f.first < f.stop := by omega
  have hstople : f.stop < 2 ^ 16 := lt_of_le_of_lt hstop hlen
  have hff : f.off * 8 % 2 ^ 16 = f.off * 8 := Nat.mod_eq_of_lt (by omega)
  have hfe : (f.off * 8 + f.data.length) % 2 ^ 16 = f.off * 8 + f.data.length :=
    Nat.mod_eq_of_lt (by omega)
  -- locate the unique hole containing the fragment range
  have hsub : ∀ q : ℕ, f.first ≤ q → q < f.stop → inHoles r.holes q :=
    fun q h1 h2 => (hcover q).mpr ⟨f, List.mem_cons_self _ _, h1, h2⟩
  obtain ⟨H, hHmem, hH1, hH2⟩ := holes_single len r.holes hwf f.first f.stop hfflt hsub
  obtain ⟨l1, l2, hdecomp⟩ := List.append_of_mem hHmem
  have hwfelem := hwf.1
  have hwf2 := hwf.2
  rw [hdecomp, List.pairwise_append] at hwf2
  have hHl2 : ∀ g ∈ l2, H.2 < g.1 ∨ g.2 < H.1 :=
    (List.pairwise_cons.mp hwf2.2.1).1
  have hl1H : ∀ g ∈ l1, g.2 < H.1 ∨ H.2 < g.1 :=
    fun g hg => hwf2.2.2 g hg H (List.mem_cons_self _ _)
  have hno1 : ∀ g ∈ l1, f.first ≥ g.2 ∨ f.stop ≤ g.1 := by
    intro g hg
    rcases hl1H g hg with h | h
    · left; omega
    · right; omega
  have hno2 : ∀ g ∈ l2, f.first ≥ g.2 ∨ f.stop ≤ g.1 := by
    intro g hg
    rcases hHl2 g hg with h | h
    · right; omega
    · left; omega
  have hHovl : ¬(f.first ≥ H.2 ∨ f.stop ≤ H.1) := by
    push_neg
    omega
  have hpunch := punch_single f.first f.stop l1 l2 H hno1 hno2 hHovl
  rw [hfirst, hstopdef] at hpunch
  -- the update accepts the fragment
  have happly : lowpan_reasm_apply r f =
      { r with
          holes := ((if f.off * 8 > H.1 then [(H.1, f.off * 8)] else []) ++
              (if f.off * 8 + f.data.length < H.2 then
                [(f.off * 8 + f.data.length, H.2)] else [])).reverse ++ (l1 ++ l2),
          buf := fun q =>
            if f.off * 8 ≤ q ∧ q < f.off * 8 + f.data.length then
              f.data.getD (q - f.off * 8) 0
            else r.buf q } := by
    unfold lowpan_reasm_apply lowpan_reasm_update
    simp only [hff]
    simp only [hfe, hrlen]
    rw [if_neg (by omega : ¬ f.off * 8 + f.data.length > len)]
    rw [if_neg (by
      rintro ⟨hne, hm⟩
      rcases hmod with h | h
      · rw [hstopdef] at h; exact hne h
      · exact hm h :
      ¬(f.off * 8 + f.data.length ≠ len ∧ f.data.length % 8 ≠ 0))]
    rw [hdecomp, hpunch]
  rw [happly]
  have hsplitsIff : ∀ q : ℕ,
      inHoles ((if f.off * 8 > H.1 then [(H.1, f.off * 8)] else []) ++
        (if f.off * 8 + f.data.length < H.2 then
          [(f.off * 8 + f.data.length, H.2)] else [])) q ↔
      (H.1 ≤ q ∧ q < H.2 ∧ ¬(f.off * 8 ≤ q ∧ q < f.off * 8 + f.data.length)) :=
    fun q => inHoles_splits H (f.off * 8) (f.off * 8 + f.data.length) q
      (by omega) (by omega) (by omega)
  have hl12disj : ∀ q : ℕ, inHoles (l1 ++ l2) q →
      ¬(f.off * 8 ≤ q ∧ q < f.off * 8 + f.data.length) := by
    intro q hq
    rw [inHoles_append] at hq
    rcases hq with ⟨g, hg, hgq⟩ | ⟨g, hg, hgq⟩
    · rcases hno1 g hg with h | h <;> omega
    · rcases hno2 g hg with h | h <;> omega
  have hfsdisj : ∀ g ∈ fs, f.stop ≤ g.first ∨ g.stop ≤ f.first :=
    (List.pairwise_cons.mp hdisj).1
  have hcov2 : ∀ q : ℕ, inHoles (l1 ++ H :: l2) q ↔
      ∃ f' ∈ f :: fs, f'.first ≤ q ∧ q < f'.stop := by
    intro q
    rw [← hdecomp]
    exact hcover q
  refine ⟨hrlen, ⟨?_, ?_⟩, ?_, ?_⟩
  · -- hole elements remain wellformed
    intro g hg
    rw [List.mem_append, List.mem_reverse] at hg
    have hHwf := hwfelem H hHmem
    rcases hg with hg | hg
    · rcases List.mem_append.mp hg with hg | hg
      · split at hg
        · rw [List.mem_singleton] at hg
          subst hg
          exact ⟨by dsimp only; omega, by dsimp only; omega⟩
        · exact absurd hg (List.not_mem_nil g)
      · split at hg
        · rw [List.mem_singleton] at hg
          subst hg
          exact ⟨by dsimp only; omega, by dsimp only; omega⟩
        · exact absurd hg (List.not_mem_nil g)
    · refine hwfelem g ?_
      rw [hdecomp, List.mem_append, List.mem_cons]
      rcases List.mem_append.mp hg with hg | hg
      · exact Or.inl hg
      · exact Or.inr (Or.inr hg)
  · -- hole separation is preserved
    rw [List.pairwise_append]
    have hHwf := hwfelem H hHmem
    refine ⟨?_, ?_, ?_⟩
    · rw [List.pairwise_reverse]
      by_cases ha : f.off * 8 > H.1 <;> by_cases hb : f.off * 8 + f.data.length < H.2 <;>
        simp only [ha, hb, if_true, if_false, List.nil_append, List.append_nil] <;>
        simp [List.pairwise_cons] <;> omega
    · rw [List.pairwise_append]
      refine ⟨hwf2.1, (List.pairwise_cons.mp hwf2.2.1).2, ?_⟩
      intro a ha b hb
      exact hwf2.2.2 a ha b (List.mem_cons_of_mem _ hb)
    · intro a ha b hb
      rw [List.mem_reverse, List.mem_append] at ha
      have hbrel : b.2 < H.1 ∨ H.2 < b.1 := by
        rcases List.mem_append.mp hb with hb | hb
        · exact hl1H b hb
        · rcases hHl2 b hb with h | h
          · exact Or.inr h
          · exact Or.inl h
      rcases ha with ha | ha
      · split at ha
        · rw [List.mem_singleton] at ha
          subst ha
          dsimp only
          omega
        · exact absurd ha (List.not_mem_nil a)
      · split at ha
        · rw [List.mem_singleton] at ha
          subst ha
          dsimp only
          omega
        · exact absurd ha (List.not_mem_nil a)
  · -- hole coverage now matches the remaining fragments
    intro q
    rw [inHoles_append, inHoles_reverse, hsplitsIff q]
    constructor
    · rintro (⟨hq1, hq2, hq3⟩ | hq)
      · have : inHoles (l1 ++ H :: l2) q := by
          rw [inHoles_append, inHoles_cons]
          exact Or.inr (Or.inl ⟨hq1, hq2⟩)
        obtain ⟨f', hf', hr'⟩ := (hcov2 q).mp this
        rcases List.mem_cons.mp hf' with rfl | hf'
        · exact (by omega : False).elim
        · exact ⟨f', hf', hr'⟩
      · have hq3 := hl12disj q hq
        have : inHoles (l1 ++ H :: l2) q := by
          rw [inHoles_append, inHoles_cons]
          rw [inHoles_append] at hq
          rcases hq with hq | hq
          · exact Or.inl hq
          · exact Or.inr (Or.inr hq)
        obtain ⟨f', hf', hr'⟩ := (hcov2 q).mp this
        rcases List.mem_cons.mp hf' with rfl | hf'
        · exact (by omega : False).elim
        · exact ⟨f', hf', hr'⟩
    · rintro ⟨f', hf', hr'⟩
      have hnf : ¬(f.off * 8 ≤ q ∧ q < f.off * 8 + f.data.length) := by
        rcases hfsdisj f' hf' with h | h <;> omega
      have hold : inHoles (l1 ++ H :: l2) q :=
        (hcov2 q).mpr ⟨f', List.mem_cons_of_mem _ hf', hr'⟩
      rw [inHoles_append, inHoles_cons] at hold
      rcases hold with hq | hq | hq
      · exact Or.inr (by rw [inHoles_append]; exact Or.inl hq)
      · exact Or.inl ⟨hq.1, hq.2, hnf⟩
      · exact Or.inr (by rw [inHoles_append]; exact Or.inr hq)
  · -- filled bytes carry the datagram's data
    intro q hqlen hnin
    simp only []
    by_cases hin : f.off * 8 ≤ q ∧ q < f.off * 8 + f.data.length
    · rw [if_pos hin]
      have hk := hdata (q - f.off * 8) (by omega)
      rw [hk]
      congr 1
      omega
    · rw [if_neg hin]
      refine hbuf q hqlen ?_
      intro hold
      apply hnin
      rw [hdecomp, inHoles_append, inHoles_cons] at hold
      rw [inHoles_append, inHoles_reverse, hsplitsIff q]
      rcases hold with hq | hq | hq
      · exact Or.inr (by rw [inHoles_append]; exact Or.inl hq)
      · exact Or.inl ⟨hq.1, hq.2, hin⟩
      · exact Or.inr (by rw [inHoles_append]; exact Or.inr hq)


/-- A fresh context satisfies the invariant with the whole split pending. -/
theorem reasm_base (len : ℕ) (data : List ℕ) (fs : List LowpanFrag)
    (hpos : 0 < len) (hsplit : IsSplitOf len data fs) :
    ReasmInv len data fs (lowpan_reasm_new len) := by
  have hh : (lowpan_reasm_new len).holes = [(0, len)] := rfl
  refine ⟨rfl, ⟨?_, ?_⟩, ?_, ?_⟩
  · intro h hm
    rw [hh, List.mem_singleton] at hm
    subst hm
    exact ⟨hpos, le_refl len⟩
  · rw [hh]
    simp
  · intro q
    unfold inHoles
    rw [hh]
    constructor
    · rintro ⟨h, hm, hq⟩
      rw [List.mem_singleton] at hm
      subst hm
      exact hsplit.2.2 q (by dsimp only at hq; omega)
    · rintro ⟨f, hf, hq⟩
      have hfl := (hsplit.2.1.1 f hf).2.2.1
      exact ⟨(0, len), List.mem_singleton_self _, by dsimp only; omega⟩
  · intro q hq hnin
    refine absurd ?_ hnin
    unfold inHoles
    rw [hh]
    exact ⟨(0, len), List.mem_singleton_self _, by dsimp only; omega⟩

/-- Folding all pending fragments of a split empties the pending set. -/
theorem reasm_fold (len : ℕ) (data : List ℕ) :
    ∀ (fs : List LowpanFrag) (r : LowpanReasm), len < 2 ^ 16 →
      FragsOk len data fs → ReasmInv len data fs r →
      ReasmInv len data [] (fs.foldl lowpan_reasm_apply r) := by
  intro fs
  induction fs with
  | nil => intro r _ _ hinv; exact hinv
  | cons f fs ih =>
      intro r hlen hfs hinv
      rw [List.foldl_cons]
      refine ih (lowpan_reasm_apply r f) hlen
        ⟨fun g hg => hfs.1 g (List.mem_cons_of_mem _ hg),
         (List.pairwise_cons.mp hfs.2).2⟩
        (reasm_apply_step len data f fs r hlen hfs hinv)

/-- An invariant state with nothing pending is complete: empty hole list and
a buffer holding the datagram. -/
theorem reasm_final (len : ℕ) (data : List ℕ) (r : LowpanReasm)
    (hinv : ReasmInv len data [] r) :
    r.holes = [] ∧ ∀ q : ℕ, q < len → r.buf q = data.getD q 0 := by
  obtain ⟨_, hwf, hcover, hbuf⟩ := hinv
  have hempty : r.holes = [] := by
    rcases hne : r.holes with _ | ⟨h, rest⟩
    · rfl
    · exfalso
      have hm : h ∈ r.holes := by rw [hne]; exact List.mem_cons_self _ _
      have hh := hwf.1 h hm
      have hin : inHoles r.holes h.1 := ⟨h, hm, le_refl _, hh.1⟩
      obtain ⟨f, hf, _⟩ := (hcover h.1).mp hin
      exact absurd hf (List.not_mem_nil f)
  refine ⟨hempty, fun q hq => hbuf q hq ?_⟩
  rw [hempty]
  exact inHoles_nil q

/-- C5, counterexample.  For the empty byte sequence (`len = 0`) the empty
fragment list is a split, yet the fresh context's hole list is `[(0, 0)]` and
no sequence of fragments can ever remove a zero-width hole (nothing overlaps
it), so the hole list does not become empty as the claim requires. -/
theorem lowpan_roundtrip_counterexample :
    IsSplitOf 0 [] [] ∧
    (([] : List LowpanFrag).foldl lowpan_reasm_apply (lowpan_reasm_new 0)).holes = [(0, 0)] ∧
    (([] : List LowpanFrag).foldl lowpan_reasm_apply (lowpan_reasm_new 0)).holes ≠ [] := by
  refine ⟨⟨rfl, ⟨?_, ?_⟩, ?_⟩, rfl, by simp [lowpan_reasm_new]⟩
  · intro f hf
    exact absurd hf (List.not_mem_nil f)
  · exact List.Pairwise.nil
  · intro q hq
    exact absurd hq (Nat.not_lt_zero q)

/-- C5 (amended): splitting a byte sequence of length `0 < len < 2^16` into
fragments at 8-byte-aligned wire-representable offsets (the last fragment may
be shorter than a multiple of 8) and applying them to a fresh reassembly
context in any order empties the hole list and reconstructs the original
bytes; moreover applying any fragment (overlapping or not, accepted or
rejected) never modifies a buffer byte outside `[offset*8, offset*8+length)`. -/
theorem lowpan_roundtrip_amended :
    (∀ (len : ℕ) (data : List ℕ) (fs : List LowpanFrag),
      0 < len → len < 2 ^ 16 → IsSplitOf len data fs →
      (fs.foldl lowpan_reasm_apply (lowpan_reasm_new len)).holes = [] ∧
      ∀ q : ℕ, q < len →
        (fs.foldl lowpan_reasm_apply (lowpan_reasm_new len)).buf q = data.getD q 0) ∧
    (∀ (r : LowpanReasm) (f : LowpanFrag), f.off < 256 →
      ∀ q : ℕ, q < f.first ∨ f.stop ≤ q →
        (lowpan_reasm_apply r f).buf q = r.buf q) := by
  constructor
  · intro len data fs hpos hlen hsplit
    exact reasm_final len data _
      (reasm_fold len data fs _ hlen hsplit.2.1 (reasm_base len data fs hpos hsplit))
  · intro r f hoff q hq
    unfold lowpan_reasm_apply lowpan_reasm_update
    have hff : f.off * 8 % 2 ^ 16 = f.off * 8 := Nat.mod_eq_of_lt (by omega)
    simp only [hff]
    by_cases h1 : (f.off * 8 + f.data.length) % 2 ^ 16 > r.len
    · rw [if_pos h1]
    · rw [if_neg h1]
      by_cases h2 : (f.off * 8 + f.data.length) % 2 ^ 16 ≠ r.len ∧ f.data.length % 8 ≠ 0
      · rw [if_pos h2]
      · rw [if_neg h2]
        show (if f.off * 8 ≤ q ∧ q < f.off * 8 + f.data.length then
          f.data.getD (q - f.off * 8) 0 else r.buf q) = r.buf q
        rw [if_neg (by
          simp only [LowpanFrag.first, LowpanFrag.stop] at hq
          omega)]

def lowpan_demo_data : List ℕ :=
  [10, 11, 12, 13, 14, 15, 16, 17, 20, 21, 22]

def lowpan_demo_frags : List LowpanFrag :=
  [⟨1, [20, 21, 22]⟩, ⟨0, [10, 11, 12, 13, 14, 15, 16, 17]⟩]

theorem lowpan_roundtrip_amended_witness :
    (0 < 11 ∧ 11 < 2 ^ 16 ∧ IsSplitOf 11 lowpan_demo_data lowpan_demo_frags ∧
      ((lowpan_demo_frags.foldl lowpan_reasm_apply (lowpan_reasm_new 11)).holes = [] ∧
       ∀ q : ℕ, q < 11 →
         (lowpan_demo_frags.foldl lowpan_reasm_apply (lowpan_reasm_new 11)).buf q =
           lowpan_demo_data.getD q 0)) ∧
    ((⟨1, [9]⟩ : LowpanFrag).off < 256 ∧
      ∀ q : ℕ, q < (⟨1, [9]⟩ : LowpanFrag).first ∨ (⟨1, [9]⟩ : LowpanFrag).stop ≤ q →
        (lowpan_reasm_apply (lowpan_reasm_new 32) ⟨1, [9]⟩).buf q =
          (lowpan_reasm_new 32).buf q) :=
  ⟨⟨by norm_num, by norm_num, by decide,
     lowpan_roundtrip_amended.1 11 lowpan_demo_data lowpan_demo_frags
       (by norm_num) (by norm_num) (by decide)⟩,
   ⟨by decide,
    lowpan_roundtrip_amended.2 (lowpan_reasm_new 32) ⟨1, [9]⟩ (by decide)⟩⟩


/-! ## RPL MRHOF parent selection (app_wsrd/ipv6/rpl_mrhof.c)

Neighbors are the IPv6 neighbor cache entries (`struct ipv6_neigh`); the
cache is a list, and the C pointers into it are modelled as list indices
(`Option ℕ`, `none` = NULL).  `float` path costs and metrics are exact
rationals.  `ntohs`-converted wire fields are plain naturals. -/

/-- The `struct ws_neigh` link-quality fields read by MRHOF.  `etx` and
`rsl_out_dbm` are NaN-able floats (`none` = NaN); `rsl_in_dbm_unsecured` is
asserted non-NaN by `BUG_ON` in `rpl_mrhof_candidate_rsl_is_valid`, so it is
modelled as a plain rational. -/
structure WsNeighInfo where
  etx : Option ℚ
  rsl_out_dbm : Option ℚ
  rsl_in_dbm_unsecured : ℚ
  deriving DecidableEq, Repr

/-- Per-neighbor RPL state: advertised DIO rank and config (host order),
the preferred-parent flag, the deny timer's stopped state, and the RSL
hysteresis state. -/
structure RplInfo where
  dio_rank : ℕ
  min_hop_rank_inc : ℕ
  max_rank_inc : ℕ
  is_parent : Bool
  deny_timer_stopped : Bool
  rsl_valid : Bool
  deriving DecidableEq, Repr

/-- A neighbor cache entry (`struct ipv6_neigh`) as read by MRHOF: optional
RPL state (`nce->rpl`), optional ws_neigh entry (`ws_neigh_get` may return
NULL), and whether NUD is in the PROBE state. -/
structure Ipv6Neigh where
  rpl : Option RplInfo
  ws : Option WsNeighInfo
  nud_probe : Bool
  deriving DecidableEq, Repr

/-- `struct rpl_mrhof`: profile constants and the lowest advertised rank.
`WS_CAND_PARENT_THRESHOLD_DB` and `WS_CAND_PARENT_HYSTERESIS_DB` live in
common/specs/ws.h (not among the sources); they are carried as context
fields since only their role in the two thresholds matters here. -/
structure RplMrhof where
  max_link_metric : ℚ
  max_path_cost : ℚ
  parent_switch_threshold : ℚ
  device_min_sens_dbm : ℤ
  cand_parent_threshold_db : ℤ
  cand_parent_hysteresis_db : ℤ
  lowest_advertised_rank : ℕ
  deriving DecidableEq, Repr

/-- Modelled from the spec: `RPL_RANK_INFINITE` (common/specs/rpl.h is not in
the sources) — RFC 6550 defines INFINITE_RANK as 0xffff, and
`rpl_mrhof_get_rank_limit` returns it when the limit would reach
`UINT16_MAX`. -/
def RPL_RANK_INFINITE : ℕ := 65535

/-- `rpl_mrhof_etx`: the neighbor's ETX, NaN when there is no ws_neigh
entry or no measurement. -/
def rpl_mrhof_etx (nce : Ipv6Neigh) : Option ℚ :=
  match nce.ws with
  | none => none
  | some w => w.etx

/-- `rpl_mrhof_path_cost` (RFC 6719 3.1): `max_path_cost` when ETX is
unknown, otherwise `etx + ntohs(nce->rpl->dio.rank)`. -/
def rpl_mrhof_path_cost (mrhof : RplMrhof) (nce : Ipv6Neigh) (r : RplInfo) : ℚ :=
  match rpl_mrhof_etx nce with
  | none => mrhof.max_path_cost
  | some e => e + (r.dio_rank : ℚ)

/-- `rpl_mrhof_candidate_rsl_is_valid`: Wi-SUN 6.2.3.1.6.3 hysteresis — the
admission threshold is `DEVICE_MIN_SENS + CAND_PARENT_THRESHOLD +
CAND_PARENT_HYSTERESIS` for a neighbor not yet RSL-valid and the removal
threshold `... - CAND_PARENT_HYSTERESIS` for one already valid. -/
def rpl_mrhof_candidate_rsl_is_valid (mrhof : RplMrhof) (nce : Ipv6Neigh)
    (r : RplInfo) : Bool :=
  match nce.ws with
  | none => false
  | some w =>
      match w.rsl_out_dbm with
      | none => false
      | some out =>
          if !r.rsl_valid then
            let threshold : ℤ := mrhof.device_min_sens_dbm +
              mrhof.cand_parent_threshold_db + mrhof.cand_parent_hysteresis_db
            decide (w.rsl_in_dbm_unsecured > (threshold : ℚ) ∧ out > (threshold : ℚ))
          else
            let threshold : ℤ := mrhof.device_min_sens_dbm +
              mrhof.cand_parent_threshold_db - mrhof.cand_parent_hysteresis_db
            decide (¬(w.rsl_in_dbm_unsecured < (threshold : ℚ) ∧ out < (threshold : ℚ)))

/-- `rpl_mrhof_path_rank` (RFC 6719 3.3) for a given candidate:
`MIN(path_cost, (float)UINT16_MAX)` converted to `uint16_t` — for the
nonnegative path costs occurring in practice this is
`min (floor path_cost) 65535`, written with `num/den` so that it computes
(float-to-integer conversion of a negative value would be C UB; the model
yields 0 there). -/
def rpl_mrhof_path_rank (mrhof : RplMrhof) (nce : Ipv6Neigh) (r : RplInfo) : ℕ :=
  let path_cost := rpl_mrhof_path_cost mrhof nce r
  min (path_cost.num.toNat / path_cost.den) 65535

/-- `rpl_mrhof_rank` (RFC 6719 3.3) specialized to `single_parent != NULL`,
the only way the selection path calls it: the maximum of the path rank, the
rounded-up advertised rank `MinHopRankIncrease * (dio_rank/MinHopRankIncrease
+ 1)` (truncated to `uint16_t` on assignment), and `path_rank -
MaxRankIncrease` (the C `MAX` promotes to `int`, so a negative difference is
simply ignored — natural subtraction models this). -/
def rpl_mrhof_rank (mrhof : RplMrhof) (nce : Ipv6Neigh) (r : RplInfo) : ℕ :=
  let path_rank := rpl_mrhof_path_rank mrhof nce r
  let rank1 := path_rank
  let rank2 := (max rank1 (r.min_hop_rank_inc * (r.dio_rank / r.min_hop_rank_inc + 1))) % 2 ^ 16
  max rank2 (path_rank - r.max_rank_inc)

/-- Modelled from the spec: `rpl_dag_rank` (app_wsrd/ipv6/rpl.h is not in the
sources) — RFC 6550 3.5.1: `DAGRank(rank) = floor(rank /
MinHopRankIncrease)`. -/
def rpl_dag_rank (min_hop_rank_inc rank : ℕ) : ℕ :=
  rank / min_hop_rank_inc

/-- `add16sat` (common/mathutils.h): 16-bit addition with saturation. -/
def add16sat (a b : ℕ) : ℕ :=
  let sum := (a + b) % 2 ^ 16
  if sum < a then 2 ^ 16 - 1 else sum

/-- `rpl_mrhof_get_rank_limit` (RFC 6550 8.2.2.4 with the upper-DAGRank
relaxation described in the source comment). -/
def rpl_mrhof_get_rank_limit (mrhof : RplMrhof) (max_rank_inc min_hop_rank_inc : ℕ) : ℕ :=
  let max_dag_rank := rpl_dag_rank min_hop_rank_inc
    (add16sat mrhof.lowest_advertised_rank max_rank_inc)
  let rank_limit := (max_dag_rank + 1) * min_hop_rank_inc
  if rank_limit ≥ 65535 then RPL_RANK_INFINITE else rank_limit - 1

/-- `rpl_mrhof_check_candidate`: the admission filter.  Returns the mutated
neighbor (NUD probe on unknown ETX; stored `rsl_valid` otherwise) and the
discard reason (`none` = admitted).  The C returns the strings "etx", "rsl",
"etx", "denied", "rank" for the five conditions in this order. -/
def rpl_mrhof_check_candidate (mrhof : RplMrhof) (nce : Ipv6Neigh) (r : RplInfo)
    (rank_limit : ℕ) : Ipv6Neigh × Option String :=
  let new_rank := rpl_mrhof_rank mrhof nce r
  match rpl_mrhof_etx nce with
  | none => ({ nce with nud_probe := true }, some "etx")
  | some e =>
      let valid := rpl_mrhof_candidate_rsl_is_valid mrhof nce r
      let nce' := { nce with rpl := some { r with rsl_valid := valid } }
      if !valid then (nce', some "rsl")
      else if e > mrhof.max_link_metric then (nce', some "etx")
      else if !r.deny_timer_stopped then (nce', some "denied")
      else if new_rank > rank_limit then (nce', some "rank")
      else (nce', none)

/-- The preferred-parent predicate: `nce->rpl && nce->rpl->is_parent`. -/
def isParentPred (nce : Ipv6Neigh) : Bool :=
  match nce.rpl with
  | some r => r.is_parent
  | none => false

/-- Modelled from the spec: `rpl_neigh_pref_parent` (app_wsrd/ipv6/rpl.c is
not in the sources) — returns the neighbor cache entry whose
`rpl->is_parent` flag is set ("at most one neighbor has `is_parent ==
true`"), here as an index into the cache list, `none` for NULL. -/
def rpl_neigh_pref_parent : List Ipv6Neigh → Option ℕ
  | [] => none
  | nce :: rest =>
      if isParentPred nce then some 0
      else (rpl_neigh_pref_parent rest).map (fun i => i + 1)

/-- A NULL/absent neighbor placeholder for total indexing. -/
def nceDefault : Ipv6Neigh := ⟨none, none, false⟩

/-- The candidate scan loop of `rpl_mrhof_select_parent` (lines 201-222):
walk the cache, run the admission filter on every RPL neighbor (mutating
it), and track the lowest-path-cost admissible candidate (`path_cost >=
pref_path_cost` is skipped, so the first minimum wins).  `i` is the index of
the list head within the whole cache. -/
def rpl_mrhof_scan (mrhof : RplMrhof) (rank_limit : ℕ) :
    List Ipv6Neigh → ℕ → ℚ → Option ℕ → List Ipv6Neigh × ℚ × Option ℕ
  | [], _, best, bestIdx => ([], best, bestIdx)
  | nce :: rest, i, best, bestIdx =>
      match nce.rpl with
      | none =>
          let t := rpl_mrhof_scan mrhof rank_limit rest (i + 1) best bestIdx
          (nce :: t.1, t.2.1, t.2.2)
      | some r =>
          let path_cost := rpl_mrhof_path_cost mrhof nce r
          let c := rpl_mrhof_check_candidate mrhof nce r rank_limit
          if c.2 = none ∧ path_cost < best then
            let t := rpl_mrhof_scan mrhof rank_limit rest (i + 1) path_cost (some i)
            (c.1 :: t.1, t.2.1, t.2.2)
          else
            let t := rpl_mrhof_scan mrhof rank_limit rest (i + 1) best bestIdx
            (c.1 :: t.1, t.2.1, t.2.2)

/-- Lines 183-187: the current parent's path cost, or `max_path_cost` when
there is no parent or its deny timer is running. -/
def rpl_mrhof_cur_min_path_cost (mrhof : RplMrhof) (neighs : List Ipv6Neigh) : ℚ :=
  match (rpl_neigh_pref_parent neighs).bind (fun i => neighs.get? i) with
  | some nce =>
      match nce.rpl with
      | some r =>
          if r.deny_timer_stopped then rpl_mrhof_path_cost mrhof nce r
          else mrhof.max_path_cost
      | none => mrhof.max_path_cost
  | none => mrhof.max_path_cost

/-- Lines 189-191: the rank limit derived from the current parent's config,
`RPL_RANK_INFINITE` when there is no parent. -/
def rpl_mrhof_rank_limit_of (mrhof : RplMrhof) (neighs : List Ipv6Neigh) : ℕ :=
  match (rpl_neigh_pref_parent neighs).bind (fun i => neighs.get? i) with
  | some nce =>
      match nce.rpl with
      | some r => rpl_mrhof_get_rank_limit mrhof r.max_rank_inc r.min_hop_rank_inc
      | none => RPL_RANK_INFINITE
  | none => RPL_RANK_INFINITE

/-- The scan of the whole cache with the run's rank limit, starting from
`pref_path_cost = max_path_cost` and no candidate. -/
def rpl_mrhof_scan_result (mrhof : RplMrhof) (neighs : List Ipv6Neigh) :
    List Ipv6Neigh × ℚ × Option ℕ :=
  rpl_mrhof_scan mrhof (rpl_mrhof_rank_limit_of mrhof neighs) neighs 0
    mrhof.max_path_cost none

/-- Set/clear `is_parent` of the neighbor at index `i`
(`pref_parent->rpl->is_parent = ...`). -/
def set_parent_flag (nce : Ipv6Neigh) (b : Bool) : Ipv6Neigh :=
  { nce with rpl := nce.rpl.map (fun r => { r with is_parent := b }) }

def list_update_parent : List Ipv6Neigh → ℕ → Bool → List Ipv6Neigh
  | [], _, _ => []
  | nce :: rest, 0, b => set_parent_flag nce b :: rest
  | nce :: rest, i + 1, b => nce :: list_update_parent rest i b

/-- `rpl_mrhof_select_parent` (RFC 6719 3.2.2): compute the current parent's
cost and the rank limit, scan the candidates, then either keep the current
parent (same-parent stability, or hysteresis `pref_path_cost +
parent_switch_threshold > cur_min_path_cost` when both costs are finite) or
switch: clear the old parent's flag, set the new one's.  Returns the mutated
cache and the new preferred parent (index). -/
def rpl_mrhof_select_parent (mrhof : RplMrhof) (neighs : List Ipv6Neigh) :
    List Ipv6Neigh × Option ℕ :=
  let curIdx := rpl_neigh_pref_parent neighs
  let cur_min_path_cost := rpl_mrhof_cur_min_path_cost mrhof neighs
  let t := rpl_mrhof_scan_result mrhof neighs
  if t.2.2 = curIdx ∧ cur_min_path_cost < mrhof.max_path_cost then
    (t.1, curIdx)
  else if cur_min_path_cost < mrhof.max_path_cost ∧ t.2.1 < mrhof.max_path_cost ∧
      cur_min_path_cost < t.2.1 + mrhof.parent_switch_threshold then
    (t.1, curIdx)
  else
    let l1 := match curIdx with
      | some i => list_update_parent t.1 i false
      | none => t.1
    let l2 := match t.2.2 with
      | some j => list_update_parent l1 j true
      | none => l1
    (l2, t.2.2)

/-- At most one cache entry has `is_parent` set. -/
def AtMostOneParent (l : List Ipv6Neigh) : Prop :=
  ∀ k1 : ℕ, k1 < l.length → ∀ k2 : ℕ, k2 < l.length →
    isParentPred (l.getD k1 nceDefault) = true →
    isParentPred (l.getD k2 nceDefault) = true → k1 = k2

instance (l : List Ipv6Neigh) : Decidable (AtMostOneParent l) := by
  unfold AtMostOneParent
  infer_instance


theorem check_fst (mrhof : RplMrhof) (nce : Ipv6Neigh) (r : RplInfo) (rl : ℕ) :
    (rpl_mrhof_check_candidate mrhof nce r rl).1 =
      match rpl_mrhof_etx nce with
      | none => { nce with nud_probe := true }
      | some _ =>
          { nce with
              rpl := some { r with rsl_valid := rpl_mrhof_candidate_rsl_is_valid mrhof nce r } } := by
  unfold rpl_mrhof_check_candidate
  cases hx : rpl_mrhof_etx nce
  · rfl
  · simp only []
    repeat' split
    all_goals rfl

theorem check_preserves_parent (mrhof : RplMrhof) (nce : Ipv6Neigh) (r : RplInfo)
    (rl : ℕ) (h : nce.rpl = some r) :
    isParentPred (rpl_mrhof_check_candidate mrhof nce r rl).1 = isParentPred nce := by
  have hf := check_fst mrhof nce r rl
  cases hx : rpl_mrhof_etx nce <;> rw [hx] at hf <;> rw [hf] <;>
    simp [isParentPred, h]

theorem scan_map_parent (mrhof : RplMrhof) (rl : ℕ) :
    ∀ (l : List Ipv6Neigh) (i : ℕ) (best : ℚ) (bi : Option ℕ),
      (rpl_mrhof_scan mrhof rl l i best bi).1.map isParentPred = l.map isParentPred := by
  intro l
  induction l with
  | nil => intro i best bi; rfl
  | cons nce rest ih =>
      intro i best bi
      cases h : nce.rpl with
      | none => simp only [rpl_mrhof_scan, h, List.map_cons, ih]
      | some r =>
          simp only [rpl_mrhof_scan, h]
          split <;>
            simp only [List.map_cons, ih, check_preserves_parent mrhof nce r rl h]


/-- Candidate-scan output characterization: either nothing beat the running
best, or the result is a strictly better admissible candidate of the list
(index relative to the start index `i`). -/
theorem rpl_mrhof_scan_found (mrhof : RplMrhof) (rl : ℕ) :
    ∀ (l : List Ipv6Neigh) (i : ℕ) (best : ℚ) (bi : Option ℕ),
      ((rpl_mrhof_scan mrhof rl l i best bi).2.1 = best ∧
       (rpl_mrhof_scan mrhof rl l i best bi).2.2 = bi) ∨
      (∃ (k : ℕ) (nce : Ipv6Neigh) (r : RplInfo), l[k]? = some nce ∧ nce.rpl = some r ∧
        (rpl_mrhof_check_candidate mrhof nce r rl).2 = none ∧
        (rpl_mrhof_scan mrhof rl l i best bi).2.2 = some (i + k) ∧
        (rpl_mrhof_scan mrhof rl l i best bi).2.1 = rpl_mrhof_path_cost mrhof nce r ∧
        rpl_mrhof_path_cost mrhof nce r < best) := by
  intro l
  induction l with
  | nil => intro i best bi; exact Or.inl ⟨rfl, rfl⟩
  | cons nce rest ih =>
      intro i best bi
      cases h : nce.rpl with
      | none =>
          simp only [rpl_mrhof_scan, h]
          rcases ih (i + 1) best bi with ⟨h1, h2⟩ | ⟨k, nce', r', hmem, hr', hadm, hidx, hbest, hlt⟩
          · exact Or.inl ⟨h1, h2⟩
          · refine Or.inr ⟨k + 1, nce', r', ?_, hr', hadm, ?_, hbest, hlt⟩
            · simpa using hmem
            · rw [hidx]
              congr 1
              omega
      | some r =>
          simp only [rpl_mrhof_scan, h]
          by_cases hc : (rpl_mrhof_check_candidate mrhof nce r rl).2 = none ∧
              rpl_mrhof_path_cost mrhof nce r < best
          · rw [if_pos hc]
            rcases ih (i + 1) (rpl_mrhof_path_cost mrhof nce r) (some i) with
              ⟨h1, h2⟩ | ⟨k, nce', r', hmem, hr', hadm, hidx, hbest, hlt⟩
            · refine Or.inr ⟨0, nce, r, by simp, h, hc.1, ?_, ?_, hc.2⟩
              · show (rpl_mrhof_scan mrhof rl rest (i + 1)
                  (rpl_mrhof_path_cost mrhof nce r) (some i)).2.2 = some (i + 0)
                rw [Nat.add_zero]
                exact h2
              · exact h1
            · refine Or.inr ⟨k + 1, nce', r', ?_, hr', hadm, ?_, hbest, lt_trans hlt hc.2⟩
              · simpa using hmem
              · simp only []
                rw [hidx]
                congr 1
                omega
          · rw [if_neg hc]
            rcases ih (i + 1) best bi with ⟨h1, h2⟩ | ⟨k, nce', r', hmem, hr', hadm, hidx, hbest, hlt⟩
            · exact Or.inl ⟨h1, h2⟩
            · refine Or.inr ⟨k + 1, nce', r', ?_, hr', hadm, ?_, hbest, hlt⟩
              · simpa using hmem
              · rw [hidx]
                congr 1
                omega

/-- The scan's best cost never exceeds the running best it started from. -/
theorem rpl_mrhof_scan_le (mrhof : RplMrhof) (rl : ℕ) (l : List Ipv6Neigh)
    (i : ℕ) (best : ℚ) (bi : Option ℕ) :
    (rpl_mrhof_scan mrhof rl l i best bi).2.1 ≤ best := by
  rcases rpl_mrhof_scan_found mrhof rl l i best bi with ⟨h1, _⟩ | ⟨_, _, _, _, _, _, _, hbest, hlt⟩
  · exact le_of_eq h1
  · rw [hbest]
    exact le_of_lt hlt

/-- The scan's best cost is a lower bound for the path cost of every
admissible candidate in the list. -/
theorem rpl_mrhof_scan_min (mrhof : RplMrhof) (rl : ℕ) :
    ∀ (l : List Ipv6Neigh) (i : ℕ) (best : ℚ) (bi : Option ℕ) (k : ℕ)
      (nce : Ipv6Neigh) (r : RplInfo),
      l[k]? = some nce → nce.rpl = some r →
      (rpl_mrhof_check_candidate mrhof nce r rl).2 = none →
      (rpl_mrhof_scan mrhof rl l i best bi).2.1 ≤ rpl_mrhof_path_cost mrhof nce r := by
  intro l
  induction l with
  | nil => intro i best bi k nce r hk; simp at hk
  | cons nce0 rest ih =>
      intro i best bi k nce r hk hr hadm
      cases k with
      | zero =>
          rw [List.getElem?_cons_zero] at hk
          injection hk with hkk
          subst hkk
          simp only [rpl_mrhof_scan, hr]
          by_cases hc : (rpl_mrhof_check_candidate mrhof nce0 r rl).2 = none ∧
              rpl_mrhof_path_cost mrhof nce0 r < best
          · rw [if_pos hc]
            exact rpl_mrhof_scan_le mrhof rl rest (i + 1) _ (some i)
          · rw [if_neg hc]
            have hge : ¬ rpl_mrhof_path_cost mrhof nce0 r < best := by
              intro hlt
              exact hc ⟨hadm, hlt⟩
            push_neg at hge
            exact le_trans (rpl_mrhof_scan_le mrhof rl rest (i + 1) best bi) hge
      | succ k =>
          simp only [List.getElem?_cons_succ] at hk
          cases h : nce0.rpl with
          | none =>
              simp only [rpl_mrhof_scan, h]
              exact ih (i + 1) best bi k nce r hk hr hadm
          | some r0 =>
              simp only [rpl_mrhof_scan, h]
              split
              · exact ih (i + 1) _ (some i) k nce r hk hr hadm
              · exact ih (i + 1) best bi k nce r hk hr hadm


theorem list_update_parent_getElem? :
    ∀ (l : List Ipv6Neigh) (i : ℕ) (b : Bool) (k : ℕ),
      (list_update_parent l i b)[k]? =
        if k = i then (l[k]?).map (fun nce => set_parent_flag nce b) else l[k]? := by
  intro l
  induction l with
  | nil =>
      intro i b k
      simp [list_update_parent]
  | cons nce rest ih =>
      intro i b k
      cases i with
      | zero =>
          cases k with
          | zero => simp [list_update_parent]
          | succ k => simp [list_update_parent]
      | succ i =>
          cases k with
          | zero => simp [list_update_parent]
          | succ k =>
              simp only [list_update_parent, List.getElem?_cons_succ]
              rw [ih i b k]
              simp [Nat.succ_inj]

theorem list_update_parent_length :
    ∀ (l : List Ipv6Neigh) (i : ℕ) (b : Bool),
      (list_update_parent l i b).length = l.length := by
  intro l
  induction l with
  | nil => intro i b; rfl
  | cons nce rest ih =>
      intro i b
      cases i with
      | zero => rfl
      | succ i => simp [list_update_parent, ih i b]

theorem pred_of_map_eq {f : Ipv6Neigh → Bool} :
    ∀ {l1 l2 : List Ipv6Neigh}, l1.map f = l2.map f → ∀ k : ℕ,
      f (l1.getD k nceDefault) = f (l2.getD k nceDefault) := by
  intro l1 l2 h k
  have hlen : l1.length = l2.length := by
    have h2 := congrArg List.length h
    simpa using h2
  by_cases hk : k < l1.length
  · have hm := congrArg (fun l => l[k]?) h
    simp only [List.getElem?_map] at hm
    rw [List.getElem?_eq_getElem hk, List.getElem?_eq_getElem (hlen ▸ hk)] at hm
    simp only [Option.map_some'] at hm
    have h1 : l1.getD k nceDefault = l1[k] := by
      rw [List.getD_eq_getElem?_getD, List.getElem?_eq_getElem hk]
      rfl
    have h2 : l2.getD k nceDefault = l2[k] := by
      rw [List.getD_eq_getElem?_getD, List.getElem?_eq_getElem (hlen ▸ hk)]
      rfl
    rw [h1, h2]
    exact Option.some.inj hm
  · have hk2 : ¬ k < l2.length := fun hh => hk (by omega)
    rw [List.getD_eq_getElem?_getD, List.getD_eq_getElem?_getD,
      List.getElem?_eq_none (by omega), List.getElem?_eq_none (by omega)]

theorem length_of_map_eq {f : Ipv6Neigh → Bool} {l1 l2 : List Ipv6Neigh}
    (h : l1.map f = l2.map f) : l1.length = l2.length := by
  have h2 := congrArg List.length h
  simpa using h2

theorem isParentPred_set_flag (nce : Ipv6Neigh) (b : Bool) :
    isParentPred (set_parent_flag nce b) = (nce.rpl.isSome && b) := by
  cases h : nce.rpl <;> simp [set_parent_flag, isParentPred, h]

theorem pred_update_parent (l : List Ipv6Neigh) (i : ℕ) (b : Bool) (k : ℕ) :
    isParentPred ((list_update_parent l i b).getD k nceDefault) =
      if k = i then ((l.getD k nceDefault).rpl.isSome && b)
      else isParentPred (l.getD k nceDefault) := by
  rw [List.getD_eq_getElem?_getD, list_update_parent_getElem?]
  by_cases hk : k = i
  · rw [if_pos hk, if_pos hk]
    cases hx : l[k]?
    · rw [List.getD_eq_getElem?_getD, hx]
      simp [isParentPred, nceDefault]
    · rw [List.getD_eq_getElem?_getD, hx]
      simp only [Option.map_some', Option.getD_some]
      exact isParentPred_set_flag _ b
  · rw [if_neg hk, if_neg hk, List.getD_eq_getElem?_getD]

theorem check_fst_rpl_isSome (mrhof : RplMrhof) (nce : Ipv6Neigh) (r : RplInfo)
    (rl : ℕ) (h : nce.rpl = some r) :
    (rpl_mrhof_check_candidate mrhof nce r rl).1.rpl.isSome = nce.rpl.isSome := by
  have hf := check_fst mrhof nce r rl
  cases hx : rpl_mrhof_etx nce <;> rw [hx] at hf <;> rw [hf] <;> simp [h]

theorem scan_map_rpl_isSome (mrhof : RplMrhof) (rl : ℕ) :
    ∀ (l : List Ipv6Neigh) (i : ℕ) (best : ℚ) (bi : Option ℕ),
      (rpl_mrhof_scan mrhof rl l i best bi).1.map (fun nce => nce.rpl.isSome) =
        l.map (fun nce => nce.rpl.isSome) := by
  intro l
  induction l with
  | nil => intro i best bi; rfl
  | cons nce rest ih =>
      intro i best bi
      cases h : nce.rpl with
      | none => simp only [rpl_mrhof_scan, h, List.map_cons, ih]
      | some r =>
          simp only [rpl_mrhof_scan, h]
          split <;>
            simp only [List.map_cons, ih, check_fst_rpl_isSome mrhof nce r rl h]

theorem rpl_neigh_pref_parent_none :
    ∀ (l : List Ipv6Neigh), rpl_neigh_pref_parent l = none →
      ∀ k : ℕ, isParentPred (l.getD k nceDefault) = false := by
  intro l
  induction l with
  | nil =>
      intro _ k
      rw [List.getD_eq_getElem?_getD, List.getElem?_nil]
      rfl
  | cons nce rest ih =>
      intro h k
      unfold rpl_neigh_pref_parent at h
      by_cases hp : isParentPred nce
      · rw [if_pos hp] at h
        cases h
      · rw [if_neg hp] at h
        have hrec : rpl_neigh_pref_parent rest = none := by
          cases hh : rpl_neigh_pref_parent rest
          · rfl
          · rw [hh] at h
            simp at h
        cases k with
        | zero =>
            rw [List.getD_cons_zero]
            simpa using hp
        | succ k =>
            rw [List.getD_cons_succ]
            exact ih hrec k

theorem rpl_neigh_pref_parent_some :
    ∀ (l : List Ipv6Neigh) (i : ℕ), rpl_neigh_pref_parent l = some i →
      i < l.length ∧ isParentPred (l.getD i nceDefault) = true := by
  intro l
  induction l with
  | nil => intro i h; cases h
  | cons nce rest ih =>
      intro i h
      unfold rpl_neigh_pref_parent at h
      by_cases hp : isParentPred nce
      · rw [if_pos hp] at h
        injection h with h
        subst h
        exact ⟨by simp, by rw [List.getD_cons_zero]; exact hp⟩
      · rw [if_neg hp] at h
        cases hh : rpl_neigh_pref_parent rest with
        | none =>
            rw [hh] at h
            cases h
        | some j =>
            rw [hh] at h
            simp only [Option.map_some'] at h
            injection h with h
            subst h
            obtain ⟨hlt, hpred⟩ := ih j hh
            refine ⟨by simp; omega, ?_⟩
            rw [List.getD_cons_succ]
            exact hpred

theorem pref_parent_unique (l : List Ipv6Neigh) (i : ℕ)
    (hat : AtMostOneParent l) (h : rpl_neigh_pref_parent l = some i) :
    ∀ k : ℕ, k < l.length → isParentPred (l.getD k nceDefault) = true → k = i := by
  intro k hk hflag
  obtain ⟨hi, hip⟩ := rpl_neigh_pref_parent_some l i h
  exact hat k hk i hi hflag hip

theorem getD_getElem?_of_lt (l : List Ipv6Neigh) (k : ℕ) (hk : k < l.length) :
    l[k]? = some (l.getD k nceDefault) := by
  rw [List.getElem?_eq_getElem hk, List.getD_eq_getElem?_getD, List.getElem?_eq_getElem hk]
  rfl


/-- C2: when the scan's minimum-path-cost admissible candidate differs from
the current preferred parent, the current parent's path cost is below
`max_path_cost`, and the candidate's (strictly lower) path cost undercuts it
by less than `parent_switch_threshold`, `rpl_mrhof_select_parent` returns
the current parent and no neighbor's `is_parent` flag changes; moreover the
returned candidate index really is an admissible candidate of minimal path
cost. -/
theorem rpl_mrhof_keep_hysteresis (mrhof : RplMrhof) (neighs : List Ipv6Neigh)
    (i j : ℕ)
    (hcur : rpl_neigh_pref_parent neighs = some i)
    (hidx : (rpl_mrhof_scan_result mrhof neighs).2.2 = some j)
    (hne : j ≠ i)
    (hcurfin : rpl_mrhof_cur_min_path_cost mrhof neighs < mrhof.max_path_cost)
    (hbestlt : (rpl_mrhof_scan_result mrhof neighs).2.1 <
      rpl_mrhof_cur_min_path_cost mrhof neighs)
    (hhyst : rpl_mrhof_cur_min_path_cost mrhof neighs <
      (rpl_mrhof_scan_result mrhof neighs).2.1 + mrhof.parent_switch_threshold) :
    (rpl_mrhof_select_parent mrhof neighs).2 = some i ∧
    (rpl_mrhof_select_parent mrhof neighs).1.map isParentPred = neighs.map isParentPred ∧
    ∃ (nce : Ipv6Neigh) (r : RplInfo), neighs[j]? = some nce ∧ nce.rpl = some r ∧
      (rpl_mrhof_check_candidate mrhof nce r (rpl_mrhof_rank_limit_of mrhof neighs)).2 = none ∧
      (rpl_mrhof_scan_result mrhof neighs).2.1 = rpl_mrhof_path_cost mrhof nce r ∧
      ∀ (k : ℕ) (nce2 : Ipv6Neigh) (r2 : RplInfo), neighs[k]? = some nce2 →
        nce2.rpl = some r2 →
        (rpl_mrhof_check_candidate mrhof nce2 r2 (rpl_mrhof_rank_limit_of mrhof neighs)).2 = none →
        (rpl_mrhof_scan_result mrhof neighs).2.1 ≤ rpl_mrhof_path_cost mrhof nce2 r2 := by
  have hbestfin : (rpl_mrhof_scan_result mrhof neighs).2.1 < mrhof.max_path_cost :=
    lt_trans hbestlt hcurfin
  have hb1 : ¬((rpl_mrhof_scan_result mrhof neighs).2.2 = rpl_neigh_pref_parent neighs ∧
      rpl_mrhof_cur_min_path_cost mrhof neighs < mrhof.max_path_cost) := by
    intro hcontra
    rw [hidx, hcur] at hcontra
    exact hne (Option.some.inj hcontra.1)
  have hb2 : rpl_mrhof_cur_min_path_cost mrhof neighs < mrhof.max_path_cost ∧
      (rpl_mrhof_scan_result mrhof neighs).2.1 < mrhof.max_path_cost ∧
      rpl_mrhof_cur_min_path_cost mrhof neighs <
        (rpl_mrhof_scan_result mrhof neighs).2.1 + mrhof.parent_switch_threshold :=
    ⟨hcurfin, hbestfin, hhyst⟩
  have hsel : rpl_mrhof_select_parent mrhof neighs =
      ((rpl_mrhof_scan_result mrhof neighs).1, rpl_neigh_pref_parent neighs) := by
    unfold rpl_mrhof_select_parent
    rw [if_neg hb1, if_pos hb2]
  refine ⟨?_, ?_, ?_⟩
  · rw [hsel]
    exact hcur
  · rw [hsel]
    exact scan_map_parent mrhof (rpl_mrhof_rank_limit_of mrhof neighs) neighs 0
      mrhof.max_path_cost none
  · rcases rpl_mrhof_scan_found mrhof (rpl_mrhof_rank_limit_of mrhof neighs) neighs 0
        mrhof.max_path_cost none with ⟨h1, h2⟩ | ⟨k, nce, r, hmem, hr, hadm, hidx2, hbest2, hlt2⟩
    · have h2a : (rpl_mrhof_scan_result mrhof neighs).2.2 = none := h2
      rw [h2a] at hidx
      cases hidx
    · have hidx2a : (rpl_mrhof_scan_result mrhof neighs).2.2 = some (0 + k) := hidx2
      rw [hidx] at hidx2a
      have hk : j = k := by
        injection hidx2a with h
        omega
      subst hk
      refine ⟨nce, r, hmem, hr, hadm, hbest2, ?_⟩
      intro k2 nce2 r2 hk2 hr2 hadm2
      exact rpl_mrhof_scan_min mrhof (rpl_mrhof_rank_limit_of mrhof neighs) neighs 0
        mrhof.max_path_cost none k2 nce2 r2 hk2 hr2 hadm2

def mrhofDemo : RplMrhof := ⟨512, 32768, 192, -100, 10, 3, 65535⟩

def neighDemoParent : Ipv6Neigh :=
  ⟨some ⟨1000, 128, 0, true, true, true⟩, some ⟨some 256, some (-60), -60⟩, false⟩

def neighDemoCand : Ipv6Neigh :=
  ⟨some ⟨900, 128, 0, false, true, true⟩, some ⟨some 200, some (-60), -60⟩, false⟩

theorem neighsDemo_pref :
    rpl_neigh_pref_parent [neighDemoParent, neighDemoCand] = some 0 := by
  norm_num [rpl_neigh_pref_parent, isParentPred, neighDemoParent, neighDemoCand]

theorem neighsDemo_rank_limit :
    rpl_mrhof_rank_limit_of mrhofDemo [neighDemoParent, neighDemoCand] = 65535 := by
  norm_num [rpl_mrhof_rank_limit_of, rpl_neigh_pref_parent, isParentPred, neighDemoParent,
    neighDemoCand, mrhofDemo, rpl_mrhof_get_rank_limit, rpl_dag_rank, add16sat,
    RPL_RANK_INFINITE, List.get?]

theorem neighsDemo_cur_min :
    rpl_mrhof_cur_min_path_cost mrhofDemo [neighDemoParent, neighDemoCand] = 1256 := by
  norm_num [rpl_mrhof_cur_min_path_cost, rpl_neigh_pref_parent, isParentPred, neighDemoParent,
    neighDemoCand, mrhofDemo, rpl_mrhof_path_cost, rpl_mrhof_etx, List.get?]

theorem neighsDemo_scan_best :
    (rpl_mrhof_scan_result mrhofDemo [neighDemoParent, neighDemoCand]).2.1 = 1100 := by
  unfold rpl_mrhof_scan_result
  rw [neighsDemo_rank_limit]
  norm_num [rpl_mrhof_scan,
    rpl_mrhof_check_candidate, rpl_mrhof_etx, rpl_mrhof_candidate_rsl_is_valid,
    rpl_mrhof_rank, rpl_mrhof_path_rank, rpl_mrhof_path_cost, neighDemoParent,
    neighDemoCand, mrhofDemo, min_def, max_def, Int.toNat_ofNat,
    show (1256 : ℤ).toNat = 1256 from rfl, show (1100 : ℤ).toNat = 1100 from rfl]

theorem neighsDemo_scan_idx :
    (rpl_mrhof_scan_result mrhofDemo [neighDemoParent, neighDemoCand]).2.2 = some 1 := by
  unfold rpl_mrhof_scan_result
  rw [neighsDemo_rank_limit]
  norm_num [rpl_mrhof_scan,
    rpl_mrhof_check_candidate, rpl_mrhof_etx, rpl_mrhof_candidate_rsl_is_valid,
    rpl_mrhof_rank, rpl_mrhof_path_rank, rpl_mrhof_path_cost, neighDemoParent,
    neighDemoCand, mrhofDemo, min_def, max_def, Int.toNat_ofNat,
    show (1256 : ℤ).toNat = 1256 from rfl, show (1100 : ℤ).toNat = 1100 from rfl]

theorem rpl_mrhof_keep_hysteresis_witness :
    (rpl_neigh_pref_parent [neighDemoParent, neighDemoCand] = some 0 ∧
     (rpl_mrhof_scan_result mrhofDemo [neighDemoParent, neighDemoCand]).2.2 = some 1 ∧
     (1 : ℕ) ≠ 0 ∧
     rpl_mrhof_cur_min_path_cost mrhofDemo [neighDemoParent, neighDemoCand] <
       mrhofDemo.max_path_cost ∧
     (rpl_mrhof_scan_result mrhofDemo [neighDemoParent, neighDemoCand]).2.1 <
       rpl_mrhof_cur_min_path_cost mrhofDemo [neighDemoParent, neighDemoCand] ∧
     rpl_mrhof_cur_min_path_cost mrhofDemo [neighDemoParent, neighDemoCand] <
       (rpl_mrhof_scan_result mrhofDemo [neighDemoParent, neighDemoCand]).2.1 +
         mrhofDemo.parent_switch_threshold) ∧
    (rpl_mrhof_select_parent mrhofDemo [neighDemoParent, neighDemoCand]).2 = some 0 ∧
    (rpl_mrhof_select_parent mrhofDemo [neighDemoParent, neighDemoCand]).1.map isParentPred =
      [neighDemoParent, neighDemoCand].map isParentPred ∧
    ∃ (nce : Ipv6Neigh) (r : RplInfo),
      [neighDemoParent, neighDemoCand][(1 : ℕ)]? = some nce ∧ nce.rpl = some r ∧
      (rpl_mrhof_check_candidate mrhofDemo nce r
        (rpl_mrhof_rank_limit_of mrhofDemo [neighDemoParent, neighDemoCand])).2 = none ∧
      (rpl_mrhof_scan_result mrhofDemo [neighDemoParent, neighDemoCand]).2.1 =
        rpl_mrhof_path_cost mrhofDemo nce r ∧
      ∀ (k : ℕ) (nce2 : Ipv6Neigh) (r2 : RplInfo),
        [neighDemoParent, neighDemoCand][k]? = some nce2 → nce2.rpl = some r2 →
        (rpl_mrhof_check_candidate mrhofDemo nce2 r2
          (rpl_mrhof_rank_limit_of mrhofDemo [neighDemoParent, neighDemoCand])).2 = none →
        (rpl_mrhof_scan_result mrhofDemo [neighDemoParent, neighDemoCand]).2.1 ≤
          rpl_mrhof_path_cost mrhofDemo nce2 r2 :=
  ⟨⟨neighsDemo_pref, neighsDemo_scan_idx, by decide,
    by rw [neighsDemo_cur_min]; norm_num [mrhofDemo],
    by rw [neighsDemo_scan_best, neighsDemo_cur_min]; norm_num,
    by rw [neighsDemo_scan_best, neighsDemo_cur_min]; norm_num [mrhofDemo]⟩,
   rpl_mrhof_keep_hysteresis mrhofDemo [neighDemoParent, neighDemoCand] 0 1
     neighsDemo_pref neighsDemo_scan_idx (by decide)
     (by rw [neighsDemo_cur_min]; norm_num [mrhofDemo])
     (by rw [neighsDemo_scan_best, neighsDemo_cur_min]; norm_num)
     (by rw [neighsDemo_scan_best, neighsDemo_cur_min]; norm_num [mrhofDemo])⟩


theorem rpl_isSome_update_parent (l : List Ipv6Neigh) (i : ℕ) (b : Bool) (k : ℕ) :
    ((list_update_parent l i b).getD k nceDefault).rpl.isSome =
      ((l.getD k nceDefault)).rpl.isSome := by
  rw [List.getD_eq_getElem?_getD, list_update_parent_getElem?]
  by_cases hk : k = i
  · rw [if_pos hk]
    cases hx : l[k]?
    · rw [List.getD_eq_getElem?_getD, hx]
      rfl
    · rw [List.getD_eq_getElem?_getD, hx]
      simp [set_parent_flag]
  · rw [if_neg hk, List.getD_eq_getElem?_getD]

theorem atmostone_of_map_eq {l1 l2 : List Ipv6Neigh}
    (h : l1.map isParentPred = l2.map isParentPred) (hat : AtMostOneParent l2) :
    AtMostOneParent l1 := by
  intro k1 hk1 k2 hk2 h1 h2
  have hlen := length_of_map_eq h
  rw [pred_of_map_eq h k1] at h1
  rw [pred_of_map_eq h k2] at h2
  exact hat k1 (by omega) k2 (by omega) h1 h2

theorem select_preserves_atmostone (mrhof : RplMrhof) (neighs : List Ipv6Neigh)
    (hat : AtMostOneParent neighs) :
    AtMostOneParent (rpl_mrhof_select_parent mrhof neighs).1 := by
  have hmapA : (rpl_mrhof_scan_result mrhof neighs).1.map isParentPred =
      neighs.map isParentPred :=
    scan_map_parent mrhof (rpl_mrhof_rank_limit_of mrhof neighs) neighs 0
      mrhof.max_path_cost none
  have hscanAt : AtMostOneParent (rpl_mrhof_scan_result mrhof neighs).1 :=
    atmostone_of_map_eq hmapA hat
  have hlenA : (rpl_mrhof_scan_result mrhof neighs).1.length = neighs.length :=
    length_of_map_eq hmapA
  by_cases hb1 : (rpl_mrhof_scan_result mrhof neighs).2.2 = rpl_neigh_pref_parent neighs ∧
      rpl_mrhof_cur_min_path_cost mrhof neighs < mrhof.max_path_cost
  · have hsel : (rpl_mrhof_select_parent mrhof neighs).1 =
        (rpl_mrhof_scan_result mrhof neighs).1 := by
      simp only [rpl_mrhof_select_parent]
      rw [if_pos hb1]
    rw [hsel]
    exact hscanAt
  · by_cases hb2 : rpl_mrhof_cur_min_path_cost mrhof neighs < mrhof.max_path_cost ∧
        (rpl_mrhof_scan_result mrhof neighs).2.1 < mrhof.max_path_cost ∧
        rpl_mrhof_cur_min_path_cost mrhof neighs <
          (rpl_mrhof_scan_result mrhof neighs).2.1 + mrhof.parent_switch_threshold
    · have hsel : (rpl_mrhof_select_parent mrhof neighs).1 =
          (rpl_mrhof_scan_result mrhof neighs).1 := by
        simp only [rpl_mrhof_select_parent]
        rw [if_neg hb1, if_pos hb2]
      rw [hsel]
      exact hscanAt
    · rcases hc : rpl_neigh_pref_parent neighs with _ | i <;>
        rcases hj : (rpl_mrhof_scan_result mrhof neighs).2.2 with _ | j
      · have hsel : (rpl_mrhof_select_parent mrhof neighs).1 =
            (rpl_mrhof_scan_result mrhof neighs).1 := by
          simp only [rpl_mrhof_select_parent]
          rw [if_neg hb1, if_neg hb2, hc, hj]
        rw [hsel]
        exact hscanAt
      · have hsel : (rpl_mrhof_select_parent mrhof neighs).1 =
            list_update_parent (rpl_mrhof_scan_result mrhof neighs).1 j true := by
          simp only [rpl_mrhof_select_parent]
          rw [if_neg hb1, if_neg hb2, hc, hj]
        rw [hsel]
        intro k1 hk1 k2 hk2 h1 h2
        rw [list_update_parent_length] at hk1 hk2
        rw [pred_update_parent] at h1 h2
        have hall := rpl_neigh_pref_parent_none neighs hc
        have hx1 : k1 = j := by
          by_contra hne
          rw [if_neg hne, pred_of_map_eq hmapA k1, hall k1] at h1
          cases h1
        have hx2 : k2 = j := by
          by_contra hne
          rw [if_neg hne, pred_of_map_eq hmapA k2, hall k2] at h2
          cases h2
        rw [hx1, hx2]
      · have hsel : (rpl_mrhof_select_parent mrhof neighs).1 =
            list_update_parent (rpl_mrhof_scan_result mrhof neighs).1 i false := by
          simp only [rpl_mrhof_select_parent]
          rw [if_neg hb1, if_neg hb2, hc, hj]
        rw [hsel]
        intro k1 hk1 k2 hk2 h1 h2
        rw [list_update_parent_length, hlenA] at hk1 hk2
        rw [pred_update_parent] at h1
        by_cases hki : k1 = i
        · rw [if_pos hki, Bool.and_false] at h1
          cases h1
        · rw [if_neg hki, pred_of_map_eq hmapA k1] at h1
          exact absurd (pref_parent_unique neighs i hat hc k1 hk1 h1) hki
      · have hsel : (rpl_mrhof_select_parent mrhof neighs).1 =
            list_update_parent
              (list_update_parent (rpl_mrhof_scan_result mrhof neighs).1 i false) j true := by
          simp only [rpl_mrhof_select_parent]
          rw [if_neg hb1, if_neg hb2, hc, hj]
        rw [hsel]
        intro k1 hk1 k2 hk2 h1 h2
        rw [list_update_parent_length, list_update_parent_length, hlenA] at hk1 hk2
        rw [pred_update_parent] at h1 h2
        have hx1 : k1 = j := by
          by_contra hne
          rw [if_neg hne, pred_update_parent] at h1
          by_cases hki : k1 = i
          · rw [if_pos hki, Bool.and_false] at h1
            cases h1
          · rw [if_neg hki, pred_of_map_eq hmapA k1] at h1
            exact hki (pref_parent_unique neighs i hat hc k1 hk1 h1)
        have hx2 : k2 = j := by
          by_contra hne
          rw [if_neg hne, pred_update_parent] at h2
          by_cases hki : k2 = i
          · rw [if_pos hki, Bool.and_false] at h2
            cases h2
          · rw [if_neg hki, pred_of_map_eq hmapA k2] at h2
            exact hki (pref_parent_unique neighs i hat hc k2 hk2 h2)
        rw [hx1, hx2]


/-- C1 (amended): (1) in a run where the cache has at most one parent, a
current preferred parent exists, and the scan records a best admissible
candidate `j` — i.e. some admissible candidate's path cost is below
`max_path_cost` — distinct from the current parent whose path cost undercuts
the current parent's by at least `parent_switch_threshold`, the selection
switches: it returns `j`, and afterwards a neighbor's `is_parent` flag is set
iff it is neighbor `j` (so exactly one neighbor is the parent), and `j`
really is an admissible candidate of minimal path cost; (2) every selection
run preserves the at-most-one-parent invariant.  (The original claim fails
when every admissible candidate's path cost is at least `max_path_cost`: the
scan records no candidate, the old parent's flag is cleared and no new
parent is set, leaving zero parents.) -/
theorem rpl_mrhof_switch_amended :
    (∀ (mrhof : RplMrhof) (neighs : List Ipv6Neigh) (i j : ℕ),
      AtMostOneParent neighs →
      rpl_neigh_pref_parent neighs = some i →
      (rpl_mrhof_scan_result mrhof neighs).2.2 = some j →
      j ≠ i →
      (rpl_mrhof_scan_result mrhof neighs).2.1 + mrhof.parent_switch_threshold ≤
        rpl_mrhof_cur_min_path_cost mrhof neighs →
      (rpl_mrhof_select_parent mrhof neighs).2 = some j ∧
      (rpl_mrhof_select_parent mrhof neighs).1.length = neighs.length ∧
      (∀ k : ℕ, k < neighs.length →
        (isParentPred ((rpl_mrhof_select_parent mrhof neighs).1.getD k nceDefault) = true ↔
          k = j)) ∧
      ∃ (nce : Ipv6Neigh) (r : RplInfo), neighs[j]? = some nce ∧ nce.rpl = some r ∧
        (rpl_mrhof_check_candidate mrhof nce r (rpl_mrhof_rank_limit_of mrhof neighs)).2 = none ∧
        (rpl_mrhof_scan_result mrhof neighs).2.1 = rpl_mrhof_path_cost mrhof nce r ∧
        ∀ (k : ℕ) (nce2 : Ipv6Neigh) (r2 : RplInfo), neighs[k]? = some nce2 →
          nce2.rpl = some r2 →
          (rpl_mrhof_check_candidate mrhof nce2 r2
            (rpl_mrhof_rank_limit_of mrhof neighs)).2 = none →
          (rpl_mrhof_scan_result mrhof neighs).2.1 ≤ rpl_mrhof_path_cost mrhof nce2 r2) ∧
    (∀ (mrhof : RplMrhof) (neighs : List Ipv6Neigh),
      AtMostOneParent neighs → AtMostOneParent (rpl_mrhof_select_parent mrhof neighs).1) := by
  constructor
  · intro mrhof neighs i j hat hcur hidx hne hsw
    have hmapA : (rpl_mrhof_scan_result mrhof neighs).1.map isParentPred =
        neighs.map isParentPred :=
      scan_map_parent mrhof (rpl_mrhof_rank_limit_of mrhof neighs) neighs 0
        mrhof.max_path_cost none
    have hlenA : (rpl_mrhof_scan_result mrhof neighs).1.length = neighs.length :=
      length_of_map_eq hmapA
    obtain ⟨nce, r, hmem, hr, hadm, hbest2⟩ :
        ∃ (nce : Ipv6Neigh) (r : RplInfo), neighs[j]? = some nce ∧ nce.rpl = some r ∧
          (rpl_mrhof_check_candidate mrhof nce r
            (rpl_mrhof_rank_limit_of mrhof neighs)).2 = none ∧
          (rpl_mrhof_scan_result mrhof neighs).2.1 = rpl_mrhof_path_cost mrhof nce r := by
      rcases rpl_mrhof_scan_found mrhof (rpl_mrhof_rank_limit_of mrhof neighs) neighs 0
          mrhof.max_path_cost none with ⟨h1, h2⟩ | ⟨k0, nce, r, hmem, hr, hadm, hidx2, hbest2, hlt2⟩
      · have h2a : (rpl_mrhof_scan_result mrhof neighs).2.2 = none := h2
        rw [h2a] at hidx
        cases hidx
      · have hidx2a : (rpl_mrhof_scan_result mrhof neighs).2.2 = some (0 + k0) := hidx2
        rw [hidx] at hidx2a
        have hk : j = k0 := by
          injection hidx2a with h
          omega
        subst hk
        exact ⟨nce, r, hmem, hr, hadm, hbest2⟩
    have hjlt : j < neighs.length := by
      by_contra h
      push_neg at h
      rw [List.getElem?_eq_none h] at hmem
      cases hmem
    have hnceD : neighs.getD j nceDefault = nce := by
      have h1 := getD_getElem?_of_lt neighs j hjlt
      rw [hmem] at h1
      exact (Option.some.inj h1).symm
    have hb1 : ¬((rpl_mrhof_scan_result mrhof neighs).2.2 = rpl_neigh_pref_parent neighs ∧
        rpl_mrhof_cur_min_path_cost mrhof neighs < mrhof.max_path_cost) := by
      intro hcontra
      rw [hidx, hcur] at hcontra
      exact hne (Option.some.inj hcontra.1)
    have hb2 : ¬(rpl_mrhof_cur_min_path_cost mrhof neighs < mrhof.max_path_cost ∧
        (rpl_mrhof_scan_result mrhof neighs).2.1 < mrhof.max_path_cost ∧
        rpl_mrhof_cur_min_path_cost mrhof neighs <
          (rpl_mrhof_scan_result mrhof neighs).2.1 + mrhof.parent_switch_threshold) := by
      intro hcontra
      exact absurd hcontra.2.2 (not_lt.mpr hsw)
    have hsel : rpl_mrhof_select_parent mrhof neighs =
        (list_update_parent
          (list_update_parent (rpl_mrhof_scan_result mrhof neighs).1 i false) j true,
         some j) := by
      simp only [rpl_mrhof_select_parent]
      rw [if_neg hb1, if_neg hb2, hcur, hidx]
    have hmapS : (rpl_mrhof_scan_result mrhof neighs).1.map (fun nce2 => nce2.rpl.isSome) =
        neighs.map (fun nce2 => nce2.rpl.isSome) :=
      scan_map_rpl_isSome mrhof (rpl_mrhof_rank_limit_of mrhof neighs) neighs 0
        mrhof.max_path_cost none
    have hAj : ((rpl_mrhof_scan_result mrhof neighs).1.getD j nceDefault).rpl.isSome = true := by
      have h1 := pred_of_map_eq (f := fun nce2 => nce2.rpl.isSome) hmapS j
      rw [h1, hnceD, hr]
      rfl
    refine ⟨?_, ?_, ?_, nce, r, hmem, hr, hadm, hbest2, ?_⟩
    · rw [hsel]
    · rw [hsel]
      show (list_update_parent
        (list_update_parent (rpl_mrhof_scan_result mrhof neighs).1 i false) j true).length =
        neighs.length
      rw [list_update_parent_length, list_update_parent_length, hlenA]
    · intro k hk
      rw [hsel]
      show isParentPred ((list_update_parent
        (list_update_parent (rpl_mrhof_scan_result mrhof neighs).1 i false) j true).getD k
          nceDefault) = true ↔ k = j
      rw [pred_update_parent]
      by_cases hkj : k = j
      · subst hkj
        rw [if_pos rfl, Bool.and_true, rpl_isSome_update_parent, hAj]
        simp
      · rw [if_neg hkj, pred_update_parent]
        by_cases hki : k = i
        · rw [if_pos hki, Bool.and_false]
          simp [hkj]
        · rw [if_neg hki, pred_of_map_eq hmapA k]
          constructor
          · intro hpred
            exact absurd (pref_parent_unique neighs i hat hcur k hk hpred) hki
          · intro hkj2
            exact absurd hkj2 hkj
    · intro k2 nce2 r2 hk2 hr2 hadm2
      exact rpl_mrhof_scan_min mrhof (rpl_mrhof_rank_limit_of mrhof neighs) neighs 0
        mrhof.max_path_cost none k2 nce2 r2 hk2 hr2 hadm2
  · intro mrhof neighs hat
    exact select_preserves_atmostone mrhof neighs hat


def cexMrhof : RplMrhof := ⟨512, 32768, 192, -100, 10, 3, 60000⟩

def cexParent : Ipv6Neigh :=
  ⟨some ⟨44600, 128, 5535, true, true, true⟩, some ⟨some 400, some (-60), -60⟩, false⟩

def cexCand : Ipv6Neigh :=
  ⟨some ⟨39600, 128, 5535, false, true, true⟩, some ⟨some 400, some (-60), -60⟩, false⟩

theorem cex_pref : rpl_neigh_pref_parent [cexParent, cexCand] = some 0 := by
  norm_num [rpl_neigh_pref_parent, isParentPred, cexParent, cexCand]

theorem cex_rank_limit : rpl_mrhof_rank_limit_of cexMrhof [cexParent, cexCand] = 65535 := by
  norm_num [rpl_mrhof_rank_limit_of, rpl_neigh_pref_parent, isParentPred, cexParent,
    cexCand, cexMrhof, rpl_mrhof_get_rank_limit, rpl_dag_rank, add16sat,
    RPL_RANK_INFINITE, List.get?]

theorem cex_cur_min : rpl_mrhof_cur_min_path_cost cexMrhof [cexParent, cexCand] = 45000 := by
  norm_num [rpl_mrhof_cur_min_path_cost, rpl_neigh_pref_parent, isParentPred, cexParent,
    cexCand, cexMrhof, rpl_mrhof_path_cost, rpl_mrhof_etx, List.get?]

theorem cex_scan_eval :
    rpl_mrhof_scan_result cexMrhof [cexParent, cexCand] = ([cexParent, cexCand], 32768, none) := by
  unfold rpl_mrhof_scan_result
  rw [cex_rank_limit]
  norm_num [rpl_mrhof_scan,
    rpl_mrhof_check_candidate, rpl_mrhof_etx, rpl_mrhof_candidate_rsl_is_valid,
    rpl_mrhof_rank, rpl_mrhof_path_rank, rpl_mrhof_path_cost, cexParent,
    cexCand, cexMrhof, min_def, max_def, Int.toNat_ofNat,
    show (45000 : ℤ).toNat = 45000 from rfl, show (40000 : ℤ).toNat = 40000 from rfl]

theorem cex_select_eval :
    rpl_mrhof_select_parent cexMrhof [cexParent, cexCand] =
      ([⟨some ⟨44600, 128, 5535, false, true, true⟩, some ⟨some 400, some (-60), -60⟩, false⟩,
        cexCand], none) := by
  simp only [rpl_mrhof_select_parent]
  rw [cex_scan_eval, cex_pref, cex_cur_min]
  norm_num [cexMrhof, list_update_parent, set_parent_flag, cexParent]

/-- C1 (counterexample): a two-neighbor cache in which the admissible
candidate's path cost (40000 = ETX 400 + rank 39600) undercuts the current
parent's (45000) by far more than `parent_switch_threshold` (192), yet both
costs are at or above `max_path_cost` (32768), so the scan records no
candidate: `rpl_mrhof_select_parent` clears the old parent's `is_parent`
flag, sets no new one, and returns NULL — zero neighbors are left with
`is_parent == true`, not exactly one as claimed. -/
theorem rpl_mrhof_switch_counterexample :
    rpl_neigh_pref_parent [cexParent, cexCand] = some 0 ∧
    [cexParent, cexCand][(1 : ℕ)]? = some cexCand ∧
    cexCand.rpl = some ⟨39600, 128, 5535, false, true, true⟩ ∧
    (rpl_mrhof_check_candidate cexMrhof cexCand ⟨39600, 128, 5535, false, true, true⟩
      (rpl_mrhof_rank_limit_of cexMrhof [cexParent, cexCand])).2 = none ∧
    rpl_mrhof_path_cost cexMrhof cexCand ⟨39600, 128, 5535, false, true, true⟩ +
      cexMrhof.parent_switch_threshold ≤
      rpl_mrhof_cur_min_path_cost cexMrhof [cexParent, cexCand] ∧
    (rpl_mrhof_select_parent cexMrhof [cexParent, cexCand]).2 = none ∧
    (rpl_mrhof_select_parent cexMrhof [cexParent, cexCand]).1.map isParentPred =
      [false, false] := by
  refine ⟨cex_pref, rfl, rfl, ?_, ?_, ?_, ?_⟩
  · rw [cex_rank_limit]
    norm_num [rpl_mrhof_check_candidate, rpl_mrhof_etx, rpl_mrhof_candidate_rsl_is_valid,
      rpl_mrhof_rank, rpl_mrhof_path_rank, rpl_mrhof_path_cost, cexCand, cexMrhof,
      min_def, max_def, show (40000 : ℤ).toNat = 40000 from rfl]
  · rw [cex_cur_min]
    norm_num [rpl_mrhof_path_cost, rpl_mrhof_etx, cexCand, cexMrhof]
  · rw [cex_select_eval]
  · rw [cex_select_eval]
    norm_num [isParentPred, cexCand]

def neighSwCand : Ipv6Neigh :=
  ⟨some ⟨900, 128, 0, false, true, true⟩, some ⟨some 4, some (-60), -60⟩, false⟩

theorem sw_rank_limit :
    rpl_mrhof_rank_limit_of mrhofDemo [neighDemoParent, neighSwCand] = 65535 := by
  norm_num [rpl_mrhof_rank_limit_of, rpl_neigh_pref_parent, isParentPred, neighDemoParent,
    neighSwCand, mrhofDemo, rpl_mrhof_get_rank_limit, rpl_dag_rank, add16sat,
    RPL_RANK_INFINITE, List.get?]

theorem sw_cur_min :
    rpl_mrhof_cur_min_path_cost mrhofDemo [neighDemoParent, neighSwCand] = 1256 := by
  norm_num [rpl_mrhof_cur_min_path_cost, rpl_neigh_pref_parent, isParentPred, neighDemoParent,
    neighSwCand, mrhofDemo, rpl_mrhof_path_cost, rpl_mrhof_etx, List.get?]

theorem sw_scan_best :
    (rpl_mrhof_scan_result mrhofDemo [neighDemoParent, neighSwCand]).2.1 = 904 := by
  unfold rpl_mrhof_scan_result
  rw [sw_rank_limit]
  norm_num [rpl_mrhof_scan,
    rpl_mrhof_check_candidate, rpl_mrhof_etx, rpl_mrhof_candidate_rsl_is_valid,
    rpl_mrhof_rank, rpl_mrhof_path_rank, rpl_mrhof_path_cost, neighDemoParent,
    neighSwCand, mrhofDemo, min_def, max_def, Int.toNat_ofNat,
    show (1256 : ℤ).toNat = 1256 from rfl, show (904 : ℤ).toNat = 904 from rfl]

theorem sw_scan_idx :
    (rpl_mrhof_scan_result mrhofDemo [neighDemoParent, neighSwCand]).2.2 = some 1 := by
  unfold rpl_mrhof_scan_result
  rw [sw_rank_limit]
  norm_num [rpl_mrhof_scan,
    rpl_mrhof_check_candidate, rpl_mrhof_etx, rpl_mrhof_candidate_rsl_is_valid,
    rpl_mrhof_rank, rpl_mrhof_path_rank, rpl_mrhof_path_cost, neighDemoParent,
    neighSwCand, mrhofDemo, min_def, max_def, Int.toNat_ofNat,
    show (1256 : ℤ).toNat = 1256 from rfl, show (904 : ℤ).toNat = 904 from rfl]

theorem rpl_mrhof_switch_amended_witness :
    (AtMostOneParent [neighDemoParent, neighSwCand] ∧
     rpl_neigh_pref_parent [neighDemoParent, neighSwCand] = some 0 ∧
     (rpl_mrhof_scan_result mrhofDemo [neighDemoParent, neighSwCand]).2.2 = some 1 ∧
     (1 : ℕ) ≠ 0 ∧
     (rpl_mrhof_scan_result mrhofDemo [neighDemoParent, neighSwCand]).2.1 +
       mrhofDemo.parent_switch_threshold ≤
       rpl_mrhof_cur_min_path_cost mrhofDemo [neighDemoParent, neighSwCand]) ∧
    ((rpl_mrhof_select_parent mrhofDemo [neighDemoParent, neighSwCand]).2 = some 1 ∧
     (∀ k : ℕ, k < 2 →
       (isParentPred ((rpl_mrhof_select_parent mrhofDemo [neighDemoParent, neighSwCand]).1.getD k
          nceDefault) = true ↔ k = 1))) ∧
    AtMostOneParent (rpl_mrhof_select_parent mrhofDemo [neighDemoParent, neighSwCand]).1 := by
  have hat : AtMostOneParent [neighDemoParent, neighSwCand] := by decide
  have hpref : rpl_neigh_pref_parent [neighDemoParent, neighSwCand] = some 0 := by
    norm_num [rpl_neigh_pref_parent, isParentPred, neighDemoParent, neighSwCand]
  have hne : (1 : ℕ) ≠ 0 := by decide
  have hsw : (rpl_mrhof_scan_result mrhofDemo [neighDemoParent, neighSwCand]).2.1 +
      mrhofDemo.parent_switch_threshold ≤
      rpl_mrhof_cur_min_path_cost mrhofDemo [neighDemoParent, neighSwCand] := by
    rw [sw_scan_best, sw_cur_min]
    norm_num [mrhofDemo]
  have hmain := rpl_mrhof_switch_amended.1 mrhofDemo [neighDemoParent, neighSwCand] 0 1
    hat hpref sw_scan_idx hne hsw
  exact ⟨⟨hat, hpref, sw_scan_idx, hne, hsw⟩,
    ⟨hmain.1, fun k hk => hmain.2.2.1 k hk⟩,
    rpl_mrhof_switch_amended.2 mrhofDemo [neighDemoParent, neighSwCand] hat⟩


/-- C3 (amended): the admission filter evaluates its five exclusion
conditions in the strict order (1) ETX unknown (starting a NUD probe as a
side effect), (2) RSL hysteresis failure, (3) ETX above `max_link_metric`,
(4) active deny timer, (5) rank above the limit — the first failing
condition determines the reported reason, no probe is started once ETX is
known — but the reported diagnostics are only four distinct values:
conditions (2), (4), (5) report "rsl", "denied", "rank" while conditions
(1) and (3) both report the same string "etx". -/
theorem rpl_mrhof_check_order_amended (mrhof : RplMrhof) (nce : Ipv6Neigh) (r : RplInfo)
    (rl : ℕ) :
    (rpl_mrhof_etx nce = none →
      (rpl_mrhof_check_candidate mrhof nce r rl).2 = some "etx" ∧
      (rpl_mrhof_check_candidate mrhof nce r rl).1.nud_probe = true) ∧
    (∀ e : ℚ, rpl_mrhof_etx nce = some e →
      (rpl_mrhof_check_candidate mrhof nce r rl).1.nud_probe = nce.nud_probe ∧
      (rpl_mrhof_candidate_rsl_is_valid mrhof nce r = false →
        (rpl_mrhof_check_candidate mrhof nce r rl).2 = some "rsl") ∧
      (rpl_mrhof_candidate_rsl_is_valid mrhof nce r = true →
        (mrhof.max_link_metric < e →
          (rpl_mrhof_check_candidate mrhof nce r rl).2 = some "etx") ∧
        (e ≤ mrhof.max_link_metric →
          (r.deny_timer_stopped = false →
            (rpl_mrhof_check_candidate mrhof nce r rl).2 = some "denied") ∧
          (r.deny_timer_stopped = true →
            (rl < rpl_mrhof_rank mrhof nce r →
              (rpl_mrhof_check_candidate mrhof nce r rl).2 = some "rank") ∧
            (rpl_mrhof_rank mrhof nce r ≤ rl →
              (rpl_mrhof_check_candidate mrhof nce r rl).2 = none))))) := by
  constructor
  · intro hx
    refine ⟨?_, ?_⟩ <;> simp [rpl_mrhof_check_candidate, hx]
  · intro e hx
    have hf := check_fst mrhof nce r rl
    rw [hx] at hf
    refine ⟨by rw [hf], ?_, ?_⟩
    · intro hv
      simp [rpl_mrhof_check_candidate, hx, hv]
    · intro hv
      constructor
      · intro hgt
        simp [rpl_mrhof_check_candidate, hx, hv, hgt]
      · intro hle
        have hngt : ¬ e > mrhof.max_link_metric := not_lt.mpr hle
        refine ⟨?_, ?_⟩
        · intro hd
          simp [rpl_mrhof_check_candidate, hx, hv, hngt, hd]
        · intro hd
          refine ⟨?_, ?_⟩
          · intro hrk
            simp [rpl_mrhof_check_candidate, hx, hv, hngt, hd, hrk]
          · intro hrk
            have hnrk : ¬ rpl_mrhof_rank mrhof nce r > rl := not_lt.mpr hrk
            simp [rpl_mrhof_check_candidate, hx, hv, hngt, hd, hnrk]

def cexEtxNone : Ipv6Neigh := ⟨some ⟨1000, 128, 0, false, true, true⟩, none, false⟩

def cexEtxBig : Ipv6Neigh :=
  ⟨some ⟨1000, 128, 0, false, true, true⟩, some ⟨some 2000, some (-60), -60⟩, false⟩

/-- C3 (counterexample): two candidates excluded by different conditions —
one by condition (1), ETX unknown (no ws_neigh entry, with the NUD probe
side effect), one by condition (3), ETX 2000 above `max_link_metric` 512
after passing the RSL check — are reported with the SAME diagnostic value
"etx" (rpl_mrhof.c returns the string "etx" on both lines 125 and 136), so
the five failure reasons are not five distinct observable values. -/
theorem rpl_mrhof_check_reason_counterexample :
    rpl_mrhof_etx cexEtxNone = none ∧
    (rpl_mrhof_check_candidate mrhofDemo cexEtxNone ⟨1000, 128, 0, false, true, true⟩
      65535).2 = some "etx" ∧
    (rpl_mrhof_check_candidate mrhofDemo cexEtxNone ⟨1000, 128, 0, false, true, true⟩
      65535).1.nud_probe = true ∧
    rpl_mrhof_etx cexEtxBig = some 2000 ∧
    rpl_mrhof_candidate_rsl_is_valid mrhofDemo cexEtxBig ⟨1000, 128, 0, false, true, true⟩ =
      true ∧
    mrhofDemo.max_link_metric < 2000 ∧
    (rpl_mrhof_check_candidate mrhofDemo cexEtxBig ⟨1000, 128, 0, false, true, true⟩
      65535).2 = some "etx" := by
  refine ⟨rfl, rfl, rfl, rfl, ?_, ?_, ?_⟩
  · norm_num [rpl_mrhof_candidate_rsl_is_valid, cexEtxBig, mrhofDemo]
  · norm_num [mrhofDemo]
  · norm_num [rpl_mrhof_check_candidate, rpl_mrhof_etx, rpl_mrhof_candidate_rsl_is_valid,
      cexEtxBig, mrhofDemo]

theorem rpl_mrhof_check_order_amended_witness :
    rpl_mrhof_etx neighDemoCand = some 200 ∧
    rpl_mrhof_candidate_rsl_is_valid mrhofDemo neighDemoCand
      ⟨900, 128, 0, false, true, true⟩ = true ∧
    (200 : ℚ) ≤ mrhofDemo.max_link_metric ∧
    (⟨900, 128, 0, false, true, true⟩ : RplInfo).deny_timer_stopped = true ∧
    rpl_mrhof_rank mrhofDemo neighDemoCand ⟨900, 128, 0, false, true, true⟩ ≤ 65535 ∧
    (rpl_mrhof_check_candidate mrhofDemo neighDemoCand ⟨900, 128, 0, false, true, true⟩
      65535).2 = none := by
  have hx : rpl_mrhof_etx neighDemoCand = some 200 := rfl
  have hv : rpl_mrhof_candidate_rsl_is_valid mrhofDemo neighDemoCand
      ⟨900, 128, 0, false, true, true⟩ = true := by
    norm_num [rpl_mrhof_candidate_rsl_is_valid, neighDemoCand, mrhofDemo]
  have hle : (200 : ℚ) ≤ mrhofDemo.max_link_metric := by norm_num [mrhofDemo]
  have hrk : rpl_mrhof_rank mrhofDemo neighDemoCand ⟨900, 128, 0, false, true, true⟩ ≤
      65535 := by
    norm_num [rpl_mrhof_rank, rpl_mrhof_path_rank, rpl_mrhof_path_cost, rpl_mrhof_etx,
      neighDemoCand, mrhofDemo, min_def, max_def, show (1100 : ℤ).toNat = 1100 from rfl]
  have h := (rpl_mrhof_check_order_amended mrhofDemo neighDemoCand
    ⟨900, 128, 0, false, true, true⟩ 65535).2 200 hx
  exact ⟨hx, hv, hle, rfl, hrk, ((((h.2.2 hv).2 hle).2 rfl).2 hrk)⟩

end WiSun
